import Mathlib

set_option maxHeartbeats 1000000

/-!
Shallow embedding of the configuration engine of MCPtastic
(`src/MCPtastic/device.py`): compound-name splitting, casing conversion,
value coercion, preference assignment (`setPref`), the recursive document
merge (`traverseConfig`), and the configuration export (`ex_config`).

The engine manipulates Python values and protobuf message objects.  We
model Python scalars with `PVal`, protobuf messages as association lists
of named slots (`Msg`), and Python exceptions with `Except PyErr`.
External collaborators that are not part of this repository
(`meshtastic.util.camel_to_snake` / `snake_to_camel` / `fromStr`, the
protobuf `MessageToDict` conversion) are modelled from the spec, as noted
on each definition.  All numeric strings use an exact decimal model of
Python floats (mantissa / 10^k in canonical form); exotic float syntax
(exponents, inf/nan, underscore digit separators) is outside the model.
-/

/-- Python-style runtime errors that the engine can raise. -/
inductive PyErr where
  | typeError
  | attrError
  | valueError
  | indexError
  deriving DecidableEq, Repr

/-- Little-endian base-10 digits with explicit fuel (structural, so that
it reduces in the kernel); the fuel is always sufficient when it is at
least the number itself. -/
def natDigitsF : Nat → Nat → List Nat
  | 0, _ => []
  | _ + 1, 0 => []
  | f + 1, n + 1 => ((n + 1) % 10) :: natDigitsF f ((n + 1) / 10)

/-- Little-endian base-10 digits of a natural number; `natDigits 0 = []`. -/
def natDigits (n : Nat) : List Nat := natDigitsF n n

/-- Decidable equality on `Except` results. -/
def exceptDecEq {ε α : Type} [DecidableEq ε] [DecidableEq α] :
    (a b : Except ε α) → Decidable (a = b)
  | .ok a, .ok b =>
    match decEq a b with
    | isTrue h => isTrue (by rw [h])
    | isFalse h => isFalse (by simp [h])
  | .error a, .error b =>
    match decEq a b with
    | isTrue h => isTrue (by rw [h])
    | isFalse h => isFalse (by simp [h])
  | .ok _, .error _ => isFalse (by simp)
  | .error _, .ok _ => isFalse (by simp)

instance {ε α : Type} [DecidableEq ε] [DecidableEq α] : DecidableEq (Except ε α) :=
  exceptDecEq

/-- Value of a little-endian digit list. -/
def digitsNum : List Nat → Nat
  | [] => 0
  | d :: ds => d + 10 * digitsNum ds

/-- Value accumulated over a most-significant-first digit list. -/
def msbNum (acc : Nat) : List Nat → Nat
  | [] => acc
  | d :: ds => msbNum (acc * 10 + d) ds

/-- The character for a decimal digit. -/
def digitChar (d : Nat) : Char := Char.ofNat (48 + d)

/-- The decimal value of a digit character. -/
def charDigit (c : Char) : Nat := c.toNat - 48

/-- Decimal rendering of a natural number, most significant digit first. -/
def natStr (n : Nat) : List Char :=
  if n = 0 then ['0'] else ((natDigits n).reverse.map digitChar)

/-- Decimal rendering of an integer (Python `str` on `int`). -/
def intStr (n : Int) : List Char :=
  if n < 0 then '-' :: natStr n.natAbs else natStr n.natAbs

/-- Reads a run of decimal digits most-significant-first; `none` on a
non-digit.  Models the digit loop of Python `int()`. -/
def readDigitsAux (acc : Nat) : List Char → Option Nat
  | [] => some acc
  | c :: cs => if c.isDigit then readDigitsAux (acc * 10 + charDigit c) cs else none

/-- Parses a non-empty all-digit string. -/
def readDigits : List Char → Option Nat
  | [] => none
  | c :: cs => readDigitsAux 0 (c :: cs)

/-- Modelled from the spec, section 4.2: the integer case of the generic
string-to-primitive parser (Python `int(valstr)` on decimal literals with
an optional sign). -/
def parseIntCL : List Char → Option Int
  | '-' :: cs => (readDigits cs).map (fun n => -(n : Int))
  | '+' :: cs => (readDigits cs).map (fun n => (n : Int))
  | cs => (readDigits cs).map (fun n => (n : Int))

/-- Strips factors of ten from a scaled decimal `m / 10^k` (arguments in
the order `k`, `m`), producing the canonical representative. -/
def stripZeros : Nat → Int → Int × Nat
  | 0, m => (m, 0)
  | k + 1, m => if m % 10 = 0 then stripZeros k (m / 10) else (m, k + 1)

/-- Python values as they appear in external documents and in live
configuration slots.  Floats are exact scaled decimals `m / 10^k` kept in
canonical form (`stripZeros`-fixed). -/
inductive PVal where
  | vbool (b : Bool)
  | vint (n : Int)
  | vfloat (m : Int) (k : Nat)
  | vstr (s : String)
  | vbytes (bs : List Nat)
  | vlist (xs : List PVal)
  deriving Repr

mutual
/-- Structural decidable equality for `PVal` (the deriving handler does
not support the nested `List PVal`). -/
def PVal.deq : (a b : PVal) → Decidable (a = b)
  | .vbool x, .vbool y =>
    match decEq x y with
    | isTrue h => isTrue (by rw [h])
    | isFalse h => isFalse (by simp [h])
  | .vint x, .vint y =>
    match decEq x y with
    | isTrue h => isTrue (by rw [h])
    | isFalse h => isFalse (by simp [h])
  | .vfloat m1 k1, .vfloat m2 k2 =>
    match decEq m1 m2, decEq k1 k2 with
    | isTrue h1, isTrue h2 => isTrue (by rw [h1, h2])
    | isFalse h1, _ => isFalse (by simp [h1])
    | _, isFalse h2 => isFalse (by simp [h2])
  | .vstr x, .vstr y =>
    match decEq x y with
    | isTrue h => isTrue (by rw [h])
    | isFalse h => isFalse (by simp [h])
  | .vbytes x, .vbytes y =>
    match decEq x y with
    | isTrue h => isTrue (by rw [h])
    | isFalse h => isFalse (by simp [h])
  | .vlist x, .vlist y =>
    match PVal.deqList x y with
    | isTrue h => isTrue (by rw [h])
    | isFalse h => isFalse (by simp [h])
  | .vbool _, .vint _ | .vbool _, .vfloat _ _ | .vbool _, .vstr _
  | .vbool _, .vbytes _ | .vbool _, .vlist _
  | .vint _, .vbool _ | .vint _, .vfloat _ _ | .vint _, .vstr _
  | .vint _, .vbytes _ | .vint _, .vlist _
  | .vfloat _ _, .vbool _ | .vfloat _ _, .vint _ | .vfloat _ _, .vstr _
  | .vfloat _ _, .vbytes _ | .vfloat _ _, .vlist _
  | .vstr _, .vbool _ | .vstr _, .vint _ | .vstr _, .vfloat _ _
  | .vstr _, .vbytes _ | .vstr _, .vlist _
  | .vbytes _, .vbool _ | .vbytes _, .vint _ | .vbytes _, .vfloat _ _
  | .vbytes _, .vstr _ | .vbytes _, .vlist _
  | .vlist _, .vbool _ | .vlist _, .vint _ | .vlist _, .vfloat _ _
  | .vlist _, .vstr _ | .vlist _, .vbytes _ => isFalse (by simp)

/-- Decidable equality for lists of `PVal`. -/
def PVal.deqList : (a b : List PVal) → Decidable (a = b)
  | [], [] => isTrue rfl
  | [], _ :: _ => isFalse (by simp)
  | _ :: _, [] => isFalse (by simp)
  | x :: xs, y :: ys =>
    match PVal.deq x y, PVal.deqList xs ys with
    | isTrue h1, isTrue h2 => isTrue (by rw [h1, h2])
    | isFalse h1, _ => isFalse (by simp [h1])
    | _, isFalse h2 => isFalse (by simp [h2])
end

instance : DecidableEq PVal := PVal.deq

/-- Canonicalizing float constructor. -/
def mkFloat (m : Int) (k : Nat) : PVal :=
  PVal.vfloat (stripZeros k m).1 (stripZeros k m).2

/-- Negation of a float value (other shapes untouched). -/
def negFloat : PVal → PVal
  | .vfloat m k => .vfloat (-m) k
  | v => v

/-- Reads a possibly-empty digit run as a number, `none` on a non-digit. -/
def readDigits0 (l : List Char) : Option Nat :=
  if l.all Char.isDigit then some (msbNum 0 (l.map charDigit)) else none

/-- Parses the unsigned body of a decimal float literal
`digits* '.' digits*` (at least one digit overall). -/
def parseFloatBody (cs : List Char) : Option PVal :=
  let ip := cs.takeWhile Char.isDigit
  match cs.dropWhile Char.isDigit with
  | '.' :: fp =>
    if fp.all Char.isDigit ∧ (ip ≠ [] ∨ fp ≠ []) then
      match readDigits0 ip, readDigits0 fp with
      | some a, some b => some (mkFloat ((a : Int) * 10 ^ fp.length + (b : Int)) fp.length)
      | _, _ => none
    else none
  | _ => none

/-- Modelled from the spec, section 4.2: the float case of the generic
string-to-primitive parser (plain decimal literals with an optional sign;
Python's exponent / inf / nan syntax is outside the model). -/
def parseFloatCL : List Char → Option PVal
  | '-' :: cs => (parseFloatBody cs).map negFloat
  | '+' :: cs => parseFloatBody cs
  | cs => parseFloatBody cs

/-- Python `str` on a float in canonical scaled-decimal form: digits with
`'.'` inserted `k` places from the right, `".0"` when integral. -/
def floatStr (m : Int) (k : Nat) : List Char :=
  let sign : List Char := if m < 0 then ['-'] else []
  let ds := natStr m.natAbs
  let ds' := List.replicate (k + 1 - ds.length) '0' ++ ds
  if k = 0 then sign ++ ds' ++ ['.', '0']
  else sign ++ ds'.take (ds'.length - k) ++ ['.'] ++ ds'.drop (ds'.length - k)

/-- Lowercase hexadecimal digit character. -/
def hexChar (d : Nat) : Char :=
  if d < 10 then digitChar d else Char.ofNat (87 + d)

/-- One byte of Python's `repr` of a bytes object. -/
def byteEsc (b : Nat) : List Char :=
  if b = 92 then ['\\', '\\']
  else if b = 39 then ['\\', '\'']
  else if b = 9 then ['\\', 't']
  else if b = 10 then ['\\', 'n']
  else if b = 13 then ['\\', 'r']
  else if 32 ≤ b ∧ b < 127 then [Char.ofNat b]
  else ['\\', 'x', hexChar (b / 16), hexChar (b % 16)]

/-- Python `str`/`repr` of a bytes object (`b'...'`). -/
def bytesReprCL (bs : List Nat) : List Char :=
  'b' :: '\'' :: (bs.map byteEsc).flatten ++ ['\'']

mutual
/-- Python `str()` of a value, as used by `setPref` for the verbatim-string
retry and for the user-facing messages. -/
def pstr : PVal → String
  | .vbool true => "True"
  | .vbool false => "False"
  | .vint n => String.mk (intStr n)
  | .vfloat m k => String.mk (floatStr m k)
  | .vstr s => s
  | .vbytes bs => String.mk (bytesReprCL bs)
  | .vlist xs => "[" ++ String.intercalate ", " (preprList xs) ++ "]"

/-- Python `repr()` of a value (list elements are shown with `repr`). -/
def prepr : PVal → String
  | .vbool true => "True"
  | .vbool false => "False"
  | .vint n => String.mk (intStr n)
  | .vfloat m k => String.mk (floatStr m k)
  | .vstr s => "'" ++ s ++ "'"
  | .vbytes bs => String.mk (bytesReprCL bs)
  | .vlist xs => "[" ++ String.intercalate ", " (preprList xs) ++ "]"

/-- `repr` of each element of a list. -/
def preprList : List PVal → List String
  | [] => []
  | x :: xs => prepr x :: preprList xs
end

/-- Numeric view of a Python value: `some (m, k)` means `m / 10^k`
(booleans are the integers 0 and 1, as in Python). -/
def numView : PVal → Option (Int × Nat)
  | .vbool b => some (if b then 1 else 0, 0)
  | .vint n => some (n, 0)
  | .vfloat m k => some (m, k)
  | _ => none

mutual
/-- Python `==` on the values the engine compares (numeric types compare
by value across bool/int/float, other types structurally). -/
def pyEq : PVal → PVal → Bool
  | .vstr a, .vstr b => a == b
  | .vbytes a, .vbytes b => a == b
  | .vlist a, .vlist b => pyEqList a b
  | a, b =>
    match numView a, numView b with
    | some (m1, k1), some (m2, k2) => m1 * 10 ^ k2 == m2 * 10 ^ k1
    | _, _ => false

/-- Elementwise Python `==` on lists. -/
def pyEqList : List PVal → List PVal → Bool
  | [], [] => true
  | a :: as', b :: bs' => pyEq a b && pyEqList as' bs'
  | _, _ => false
end

/-- Python truthiness of a value. -/
def pyTruthy : PVal → Bool
  | .vbool b => b
  | .vint n => n != 0
  | .vfloat m _ => m != 0
  | .vstr s => s != ""
  | .vbytes bs => !bs.isEmpty
  | .vlist xs => !xs.isEmpty

/-- ASCII lowercase of a string (Python `str.lower` on ASCII input),
written charwise so that it reduces in the kernel. -/
def strLower (s : String) : String := String.mk (s.toList.map Char.toLower)

/-- Modelled from the spec, section 4.2: the generic string-to-primitive
parser used by the Value Coercer — boolean words, then integer, then
float, then pass-through string. -/
def fromStr (s : String) : PVal :=
  if strLower s = "t" ∨ strLower s = "true" ∨ strLower s = "yes" then .vbool true
  else if strLower s = "f" ∨ strLower s = "false" ∨ strLower s = "no" then .vbool false
  else
    match parseIntCL s.toList with
    | some n => .vint n
    | none =>
      match parseFloatCL s.toList with
      | some v => v
      | none => .vstr s

/-- The primitive string parser applied to one raw sequence element by the
repeated-field replacement path of `setPref`; on non-text input it fails
(Python `len()` on a non-string raises `TypeError`). -/
def fromStrV : PVal → Except PyErr PVal
  | .vstr s => .ok (fromStr s)
  | _ => .error .typeError

/-- Inserts `'_'` before every uppercase character (not at the start). -/
def camelSnakeAux : List Char → List Char
  | [] => []
  | c :: cs => (if c.isUpper then ['_', c] else [c]) ++ camelSnakeAux cs

/-- Modelled from the spec, section 4.1: conversion of a camel-like name
to the canonical lowercase-with-separators form (an underscore is
inserted before each interior uppercase letter, then everything is
lowercased). -/
def camel_to_snake (s : String) : String :=
  match s.toList with
  | [] => ""
  | c :: cs => String.mk ((c :: camelSnakeAux cs).map Char.toLower)

/-- Splits a character list on a separator character (Python `str.split`
with an explicit separator: `n` separators yield `n+1` groups). -/
def splitOnChar (sep : Char) : List Char → List (List Char)
  | [] => [[]]
  | c :: cs =>
    if c = sep then [] :: splitOnChar sep cs
    else
      match splitOnChar sep cs with
      | [] => [[c]]
      | g :: gs => (c :: g) :: gs

/-- Python `str.title()` on a word: the first letter of each run of
letters is uppercased, following letters are lowercased. -/
def pyTitleAux (prevAlpha : Bool) : List Char → List Char
  | [] => []
  | c :: cs =>
    (if c.isAlpha then (if prevAlpha then c.toLower else c.toUpper) else c) ::
      pyTitleAux c.isAlpha cs

/-- Modelled from the spec, section 4.1: conversion of a canonical
lowercase-with-separators name to the camel-like rendering (first segment
verbatim, later segments title-cased and concatenated). -/
def snake_to_camel (s : String) : String :=
  match splitOnChar '_' s.toList with
  | [] => ""
  | g :: gs => String.mk (g ++ (gs.map (pyTitleAux false)).flatten)

/-- Python `comp_name.split(".")`. -/
def pySplitDot (s : String) : List String :=
  (splitOnChar '.' s.toList).map String.mk

/-- Split compound (dot separated) preference name into parts
(`splitCompoundName` in `device.py`): a separator-free name becomes the
two-element list `[name, name]`. -/
def splitCompoundName (compName : String) : List String :=
  let name := pySplitDot compName
  if name.length < 2 then (name.set 0 compName) ++ [compName] else name

/-- Primitive protobuf field types occurring in the configuration tree. -/
inductive PTy where
  | tbool | tint | tfloat | tstr | tbytes
  deriving DecidableEq, Repr

/-- One symbol of an enum value table. -/
structure EnumEntry where
  name : String
  number : Int
  deriving DecidableEq, Repr

/-- Element type of a repeated field: primitive or enum. -/
inductive ETy where
  | p (t : PTy)
  | e (tbl : List EnumEntry)
  deriving DecidableEq, Repr

/-- A protobuf message slot: a scalar primitive, a scalar enum, a repeated
field, or a nested message.  As in the Python protobuf runtime, the slot
carries both its descriptor information (type, enum table, repetition)
and its current value, so a `Msg` is simultaneously the schema and the
live ConfigTree. -/
inductive Slot where
  | prim (ty : PTy) (v : PVal)
  | enum (tbl : List EnumEntry) (code : Int)
  | rep (ety : ETy) (vs : List PVal)
  | sub (fields : List (String × Slot))
  deriving Repr

mutual
/-- Structural decidable equality for `Slot` (manual: nested list). -/
def Slot.deq : (a b : Slot) → Decidable (a = b)
  | .prim t1 v1, .prim t2 v2 =>
    match decEq t1 t2, decEq v1 v2 with
    | isTrue h1, isTrue h2 => isTrue (by rw [h1, h2])
    | isFalse h1, _ => isFalse (by simp [h1])
    | _, isFalse h2 => isFalse (by simp [h2])
  | .enum t1 c1, .enum t2 c2 =>
    match decEq t1 t2, decEq c1 c2 with
    | isTrue h1, isTrue h2 => isTrue (by rw [h1, h2])
    | isFalse h1, _ => isFalse (by simp [h1])
    | _, isFalse h2 => isFalse (by simp [h2])
  | .rep e1 v1, .rep e2 v2 =>
    match decEq e1 e2, decEq v1 v2 with
    | isTrue h1, isTrue h2 => isTrue (by rw [h1, h2])
    | isFalse h1, _ => isFalse (by simp [h1])
    | _, isFalse h2 => isFalse (by simp [h2])
  | .sub f1, .sub f2 =>
    match Slot.deqFields f1 f2 with
    | isTrue h => isTrue (by rw [h])
    | isFalse h => isFalse (by simp [h])
  | .prim _ _, .enum _ _ | .prim _ _, .rep _ _ | .prim _ _, .sub _
  | .enum _ _, .prim _ _ | .enum _ _, .rep _ _ | .enum _ _, .sub _
  | .rep _ _, .prim _ _ | .rep _ _, .enum _ _ | .rep _ _, .sub _
  | .sub _, .prim _ _ | .sub _, .enum _ _ | .sub _, .rep _ _ => isFalse (by simp)

/-- Decidable equality for named slot lists. -/
def Slot.deqFields : (a b : List (String × Slot)) → Decidable (a = b)
  | [], [] => isTrue rfl
  | [], _ :: _ => isFalse (by simp)
  | _ :: _, [] => isFalse (by simp)
  | (n1, s1) :: r1, (n2, s2) :: r2 =>
    match decEq n1 n2, Slot.deq s1 s2, Slot.deqFields r1 r2 with
    | isTrue h1, isTrue h2, isTrue h3 => isTrue (by rw [h1, h2, h3])
    | isFalse h1, _, _ => isFalse (by simp [h1])
    | _, isFalse h2, _ => isFalse (by simp [h2])
    | _, _, isFalse h3 => isFalse (by simp [h3])
end

instance : DecidableEq Slot := Slot.deq

/-- A protobuf message object: named slots in declaration order. -/
abbrev Msg := List (String × Slot)

/-- Python `getattr` on a message: the value of a named slot. -/
def msgGet (m : Msg) (n : String) : Option Slot :=
  match m with
  | [] => none
  | (n', s) :: rest => if n' = n then some s else msgGet rest n

/-- Descriptor-style lookup returning the field entry (name and slot). -/
def msgGetEntry (m : Msg) (n : String) : Option (String × Slot) :=
  match m with
  | [] => none
  | (n', s) :: rest => if n' = n then some (n', s) else msgGetEntry rest n

/-- Replaces the slot of a named field, preserving field order. -/
def msgSet (m : Msg) (n : String) (s : Slot) : Msg :=
  match m with
  | [] => []
  | (n', s') :: rest => if n' = n then (n', s) :: rest else (n', s') :: msgSet rest n s

/-- The protobuf zero value of a primitive type. -/
def PTy.zeroVal : PTy → PVal
  | .tbool => .vbool false
  | .tint => .vint 0
  | .tfloat => .vfloat 0 0
  | .tstr => .vstr ""
  | .tbytes => .vbytes []

/-- Protobuf type checking and canonicalization of a scalar assignment
(`setattr` on a primitive field): a mismatched value raises `TypeError`;
Python booleans are accepted where integers are. -/
def storePrim : PTy → PVal → Except PyErr PVal
  | .tbool, .vbool b => .ok (.vbool b)
  | .tbool, .vint n => .ok (.vbool (n != 0))
  | .tint, .vint n => .ok (.vint n)
  | .tint, .vbool b => .ok (.vint (if b then 1 else 0))
  | .tfloat, .vfloat m k => .ok (.vfloat m k)
  | .tfloat, .vint n => .ok (.vfloat n 0)
  | .tfloat, .vbool b => .ok (.vfloat (if b then 1 else 0) 0)
  | .tstr, .vstr s => .ok (.vstr s)
  | .tbytes, .vbytes bs => .ok (.vbytes bs)
  | _, _ => .error .typeError

/-- Whether an enum table contains a numeric code. -/
def enumHasNumber (tbl : List EnumEntry) (n : Int) : Bool :=
  tbl.any (fun en => en.number == n)

/-- Assignment to an enum slot: integers (and booleans) carrying a code
present in the table are accepted; unknown codes raise `ValueError` and
non-integers raise `TypeError`.  (Modelling choice: enums are treated as
closed, so an unknown numeric code is rejected at assignment time.) -/
def storeEnum (tbl : List EnumEntry) : PVal → Except PyErr Int
  | .vint n => if enumHasNumber tbl n then .ok n else .error .valueError
  | .vbool b =>
    let n : Int := if b then 1 else 0
    if enumHasNumber tbl n then .ok n else .error .valueError
  | _ => .error .typeError

/-- Type check for one element of a repeated-field slice assignment. -/
def storeRepElem : ETy → PVal → Except PyErr PVal
  | .p t, v => storePrim t v
  | .e tbl, v => (storeEnum tbl v).map PVal.vint

/-- Python `setattr` on a message object: the named slot must exist and be
a scalar (assigning to a repeated or composite slot raises
`AttributeError`), and the value must type-check. -/
def setattrMsg (m : Msg) (fname : String) (v : PVal) : Except PyErr Msg :=
  match msgGet m fname with
  | none => .error .attrError
  | some (.prim ty _) => (storePrim ty v).map (fun w => msgSet m fname (.prim ty w))
  | some (.enum tbl _) => (storeEnum tbl v).map (fun n => msgSet m fname (.enum tbl n))
  | some (.rep _ _) => .error .attrError
  | some (.sub _) => .error .attrError

/-- Resolves the running `config_part` reference of `setPref` (the root
config or the value of one of its fields) as a message object; attribute
access on a non-message value raises `AttributeError`. -/
def getMsgAt (config : Msg) (part : Option String) : Except PyErr Msg :=
  match part with
  | none => .ok config
  | some p =>
    match msgGet config p with
    | some (.sub pm) => .ok pm
    | some _ => .error .attrError
    | none => .error .attrError

/-- Writes an updated `config_part` message back into the root config. -/
def writeBack (config : Msg) (part : Option String) (pm : Msg) : Msg :=
  match part with
  | none => pm
  | some p => msgSet config p (.sub pm)

/-- Models `setattr(config_part, fname, v)`. -/
def setAttrAt (config : Msg) (part : Option String) (fname : String) (v : PVal) :
    Except PyErr Msg := do
  let pm ← getMsgAt config part
  let pm' ← setattrMsg pm fname v
  .ok (writeBack config part pm')

/-- Models `config_values = getattr(config_part, contName);
setattr(config_values, fname, v)`: the one-level unwrap of a message
container followed by the terminal assignment. -/
def setViaContainer (config : Msg) (part : Option String) (contName fname : String)
    (v : PVal) : Except PyErr Msg := do
  let pm ← getMsgAt config part
  match msgGet pm contName with
  | some (.sub cm) => do
    let cm' ← setattrMsg cm fname v
    .ok (writeBack config part (msgSet pm contName (.sub cm')))
  | some _ => .error .attrError
  | none => .error .attrError

/-- Models `config_values = getattr(config, contName);
getattr(config_values, fname)` for a repeated terminal field (always
rooted at the top-level config object in the source). -/
def getRep (config : Msg) (contName fname : String) : Except PyErr (ETy × List PVal) :=
  match msgGet config contName with
  | some (.sub cm) =>
    match msgGet cm fname with
    | some (.rep ety vs) => .ok (ety, vs)
    | some _ => .error .attrError
    | none => .error .attrError
  | some _ => .error .attrError
  | none => .error .attrError

/-- Writes new contents into a repeated field reached from the root. -/
def putRep (config : Msg) (contName fname : String) (ety : ETy) (vs : List PVal) : Msg :=
  match msgGet config contName with
  | some (.sub cm) => msgSet config contName (.sub (msgSet cm fname (.rep ety vs)))
  | _ => config

/-- The middle-segment walk of `setPref`'s path resolution: each step
performs `config_part = getattr(config, config_type.name)` (note: always
from the root config object) and then
`config_type = config_type.message_type.fields_by_name.get(snake)`;
missing attributes raise `AttributeError`. -/
def resolveMiddle (config : Msg) : List String → Option String → Option (String × Slot) →
    Except PyErr (Option String × Option (String × Slot))
  | [], part, ct => .ok (part, ct)
  | np :: rest, _, ct =>
    match ct with
    | none => .error .attrError
    | some (ctn, ctslot) =>
      match msgGet config ctn with
      | none => .error .attrError
      | some _ =>
        match ctslot with
        | .sub sm => resolveMiddle config rest (some ctn) (msgGetEntry sm (camel_to_snake np))
        | _ => .error .attrError

/-- Lexicographic comparison of character lists by code point. -/
def strLeCL : List Char → List Char → Bool
  | [], _ => true
  | _ :: _, [] => false
  | a :: as', b :: bs' =>
    if a.toNat < b.toNat then true
    else if b.toNat < a.toNat then false
    else strLeCL as' bs'

/-- String order used to model Python `sorted` on symbol names
(lexicographic by code point, as in Python). -/
def strLe (a b : String) : Bool := strLeCL a.toList b.toList

/-- Insertion into a `strLe`-sorted list. -/
def insertSorted (x : String) : List String → List String
  | [] => [x]
  | y :: ys => if strLe x y then x :: y :: ys else y :: insertSorted x ys

/-- Python `sorted` on a list of strings, as a structural insertion sort
(kernel-reducible, stable for the distinct names it is applied to). -/
def pySorted (l : List String) : List String := l.foldr insertSorted []

/-- The initial coercion of `setPref`: textual raw values go through the
primitive parser, everything else is used as-is. -/
def coerceRaw : PVal → PVal
  | .vstr s => fromStr s
  | v => v

/-- The sentinel filter of the repeated-append path: existing elements
equal (under Python `==`) to `0`, `""`, or `b""` are dropped. -/
def sentinelFree (vs : List PVal) : List PVal :=
  vs.filter (fun x => !(pyEq x (.vint 0) || pyEq x (.vstr "") || pyEq x (.vbytes [])))

/-- Python `name[-1]` on a non-empty list (empty-list default `""`),
written to reduce definitionally on partially concrete lists. -/
def lastD : List String → String
  | [] => ""
  | [x] => x
  | _ :: x :: xs => lastD (x :: xs)

/-- Result of one `setPref` call: the returned boolean, the (possibly
mutated) config tree, and the printed user-facing messages. -/
structure PrefOut where
  ok : Bool
  tree : Msg
  msgs : List String
  deriving DecidableEq, Repr

/-- The assignment phase of `setPref`, after path resolution, the
`wifi_psk` length check, and enum symbol conversion: repeated fields are
replaced / cleared / appended per the shape of the value, non-repeated
fields go through the try/`TypeError`-fallback `setattr` sequence, and
the confirmation message is printed. -/
def setPrefAssign (camel : Bool) (config : Msg) (name : List String)
    (snake_name uni_name : String) (part : Option String) (ctName : String)
    (ctSlot : Slot) (prefName : String) (prefSlot : Slot) (rawVal val' : PVal) :
    Except PyErr PrefOut :=
  match prefSlot with
  | .rep _ _ =>
    match val' with
    | .vlist xs => do
      let new_vals ← xs.mapM fromStrV
      let (ety, _) ← getRep config ctName prefName
      let stored ← new_vals.mapM (storeRepElem ety)
      let config' := putRep config ctName prefName ety stored
      let dotsPfx :=
        match ctSlot with
        | .sub _ => String.intercalate "." name.dropLast ++ "."
        | _ => ""
      .ok ⟨true, config', ["Set " ++ dotsPfx ++ uni_name ++ " to " ++ pstr rawVal]⟩
    | _ => do
      let (ety, vs) ← getRep config ctName prefName
      if pyEq val' (.vint 0) then
        .ok ⟨true, putRep config ctName prefName ety [],
          ["Clearing " ++ prefName ++ " list"]⟩
      else do
        let stored ← (sentinelFree vs ++ [val']).mapM (storeRepElem ety)
        .ok ⟨true, putRep config ctName prefName ety stored,
          ["Adding '" ++ pstr rawVal ++ "' to the " ++ prefName ++ " list"]⟩
  | _ =>
    let att1 :=
      match ctSlot with
      | .sub _ => setViaContainer config part ctName prefName val'
      | _ => setAttrAt config part snake_name val'
    let finalTree :=
      match att1 with
      | .ok t => Except.ok t
      | .error .typeError => setViaContainer config part ctName prefName (.vstr (pstr val'))
      | .error e => Except.error e
    match finalTree with
    | .error e => .error e
    | .ok t =>
      let dotsPfx :=
        match ctSlot with
        | .sub _ => String.intercalate "." name.dropLast ++ "."
        | _ => ""
      .ok ⟨true, t, ["Set " ++ dotsPfx ++ uni_name ++ " to " ++ pstr rawVal]⟩

/-- Set a channel or preferences value (`setPref` in `device.py`).  The
`camel` flag models the global `mt_config.camel_case` switch.  The result
is `.error` when the Python original would raise an uncaught exception,
otherwise `.ok` with the returned boolean, the updated config tree, and
the printed user-facing messages. -/
def setPref (camel : Bool) (config : Msg) (compName : String) (rawVal : PVal) :
    Except PyErr PrefOut :=
  let name := splitCompoundName compName
  let snake_name := camel_to_snake (lastD name)
  let camel_name := snake_to_camel (lastD name)
  let uni_name := if camel then camel_name else snake_name
  let ct0 := msgGetEntry config (name.headD "")
  let resolved :=
    match ct0 with
    | some (_, .sub _) => resolveMiddle config ((name.drop 1).dropLast) none ct0
    | _ => .ok ((none : Option String), ct0)
  match resolved with
  | .error e => .error e
  | .ok (part, config_type) =>
    let pref : Option (String × Slot) :=
      match config_type with
      | some (_, .sub sm) => msgGetEntry sm snake_name
      | some ct => some ct
      | none => none
    match pref, config_type with
    | none, _ => .ok ⟨false, config, []⟩
    | some _, none => .ok ⟨false, config, []⟩
    | some (prefName, prefSlot), some (ctName, ctSlot) =>
      let val := coerceRaw rawVal
      if snake_name = "wifi_psk" ∧ (pstr rawVal).length < 8 then
        .ok ⟨false, config, ["Warning: network.wifi_psk must be 8 or more characters."]⟩
      else
        let enumType : Option (List EnumEntry) :=
          match prefSlot with
          | .enum tbl _ => some tbl
          | .rep (.e tbl) _ => some tbl
          | _ => none
        match enumType, val with
        | some tbl, .vstr vs =>
          match tbl.find? (fun en => en.name == vs) with
          | some en =>
            setPrefAssign camel config name snake_name uni_name part
              ctName ctSlot prefName prefSlot rawVal (.vint en.number)
          | none =>
            .ok ⟨false, config,
              [name.headD "" ++ "." ++ uni_name ++ " does not have an enum called " ++
                 vs ++ ", so you can not set it.",
               "Choices in sorted order are:"] ++
                (pySorted (tbl.map (fun en => en.name))).map (fun nm => "    " ++ nm)⟩
        | _, _ =>
          setPrefAssign camel config name snake_name uni_name part
            ctName ctSlot prefName prefSlot rawVal val

/-- A node of an external document: a scalar leaf or a nested mapping. -/
inductive DocV where
  | leaf (v : PVal)
  | sub (d : List (String × DocV))
  deriving Repr

mutual
/-- Structural decidable equality for `DocV` (manual: nested list). -/
def DocV.deq : (a b : DocV) → Decidable (a = b)
  | .leaf v1, .leaf v2 =>
    match decEq v1 v2 with
    | isTrue h => isTrue (by rw [h])
    | isFalse h => isFalse (by simp [h])
  | .sub d1, .sub d2 =>
    match DocV.deqList d1 d2 with
    | isTrue h => isTrue (by rw [h])
    | isFalse h => isFalse (by simp [h])
  | .leaf _, .sub _ | .sub _, .leaf _ => isFalse (by simp)

/-- Decidable equality for document entry lists. -/
def DocV.deqList : (a b : List (String × DocV)) → Decidable (a = b)
  | [], [] => isTrue rfl
  | [], _ :: _ => isFalse (by simp)
  | _ :: _, [] => isFalse (by simp)
  | (n1, v1) :: r1, (n2, v2) :: r2 =>
    match decEq n1 n2, DocV.deq v1 v2, DocV.deqList r1 r2 with
    | isTrue h1, isTrue h2, isTrue h3 => isTrue (by rw [h1, h2, h3])
    | isFalse h1, _, _ => isFalse (by simp [h1])
    | _, isFalse h2, _ => isFalse (by simp [h2])
    | _, _, isFalse h3 => isFalse (by simp [h3])
end

instance : DecidableEq DocV := DocV.deq

/-- An external document: an ordered nested mapping. -/
abbrev Doc := List (String × DocV)

/-- One leaf mutation attempted during a merge: the compound path, the
raw leaf value, and whether `setPref` reported success. -/
structure Attempt where
  path : String
  value : PVal
  applied : Bool
  deriving DecidableEq, Repr

/-- Python sequence indexing `xs[e]` by an arbitrary value, as the
section loop performs it when a section value is a list (`config[pref]`
with `pref` an element): integer (and boolean) indices wrap around once
when negative, any other index type raises `TypeError`, and an
out-of-range index raises `IndexError`. -/
def pyIndexList (xs : List PVal) : PVal → Except PyErr PVal
  | .vint n =>
    let i : Int := if n < 0 then n + xs.length else n
    if i < 0 then .error .indexError
    else
      match xs.drop i.toNat with
      | v :: _ => .ok v
      | [] => .error .indexError
  | .vbool b =>
    match xs.drop (if b then 1 else 0) with
    | v :: _ => .ok v
    | [] => .error .indexError
  | _ => .error .typeError

/-- The section loop of `traverseConfig` over a list node: Python
iterates the elements, formats each element itself into the compound
path, and re-indexes the list *by the element* to obtain the value
passed to `setPref` (list elements are never dicts in a document, so the
dict branch is dead). -/
def traverseItems (camel : Bool) (snakeRoot : String) (full : List PVal) :
    List PVal → Msg → Except PyErr (Msg × List Attempt)
  | [], config => .ok (config, [])
  | e :: rest, config => do
    let prefName := snakeRoot ++ "." ++ pstr e
    let v ← pyIndexList full e
    let out ← setPref camel config prefName v
    let (t2, atts2) ← traverseItems camel snakeRoot full rest out.tree
    .ok (t2, ⟨prefName, v, out.ok⟩ :: atts2)

/-- The section loop of `traverseConfig` over a bytes node: Python
iterates the byte values as integers and re-indexes the bytes object by
each value (yielding the byte at that position, or `IndexError` when the
value is not a valid position). -/
def traverseBytesAux (camel : Bool) (snakeRoot : String) (full : List Nat) :
    List Nat → Msg → Except PyErr (Msg × List Attempt)
  | [], config => .ok (config, [])
  | e :: rest, config => do
    let prefName := snakeRoot ++ "." ++ pstr (.vint (Int.ofNat e))
    let v ←
      match full.drop e with
      | b :: _ => Except.ok (PVal.vint (Int.ofNat b))
      | [] => Except.error PyErr.indexError
    let out ← setPref camel config prefName v
    let (t2, atts2) ← traverseBytesAux camel snakeRoot full rest out.tree
    .ok (t2, ⟨prefName, v, out.ok⟩ :: atts2)

mutual
/-- Iterate through current config level preferences and either traverse
deeper if a preference is a dict or set the preference (`traverseConfig`
in `device.py`).  Returns the constant `true` together with the updated
tree and the list of attempted leaf mutations; exceptions raised by
`setPref` propagate.  A non-mapping node is iterated as Python iterates
it: an empty string iterates to nothing, a non-empty string raises
`TypeError` at the first character-index lookup, a list or bytes node is
iterated elementwise (each element both names the path suffix and
re-indexes the node), and non-iterable scalars raise `TypeError`. -/
def traverseConfig (camel : Bool) (configRoot : String) (doc : DocV) (config : Msg) :
    Except PyErr (Bool × Msg × List Attempt) :=
  match doc with
  | .sub entries => do
    let (t, atts) ← traverseEntries camel (camel_to_snake configRoot) entries config
    .ok (true, t, atts)
  | .leaf (.vstr s) => if s = "" then .ok (true, config, []) else .error .typeError
  | .leaf (.vlist xs) => do
    let (t, atts) ← traverseItems camel (camel_to_snake configRoot) xs xs config
    .ok (true, t, atts)
  | .leaf (.vbytes bs) => do
    let (t, atts) ← traverseBytesAux camel (camel_to_snake configRoot) bs bs config
    .ok (true, t, atts)
  | .leaf _ => .error .typeError

/-- The entry loop of `traverseConfig`: builds `snakeRoot ++ "." ++ key`
for every key and recurses on nested mappings (ignoring the recursive
call's boolean, as the source does) or calls `setPref` on leaves
(ignoring its boolean). -/
def traverseEntries (camel : Bool) (snakeRoot : String) (entries : List (String × DocV))
    (config : Msg) : Except PyErr (Msg × List Attempt) :=
  match entries with
  | [] => .ok (config, [])
  | (k, v) :: rest =>
    let prefName := snakeRoot ++ "." ++ k
    match v with
    | .sub _ => do
      let (_, t, atts) ← traverseConfig camel prefName v config
      let (t2, atts2) ← traverseEntries camel snakeRoot rest t
      .ok (t2, atts ++ atts2)
    | .leaf lv => do
      let out ← setPref camel config prefName lv
      let (t2, atts2) ← traverseEntries camel snakeRoot rest out.tree
      .ok (t2, ⟨prefName, lv, out.ok⟩ :: atts2)
end

/-- The merge driver of the `configure` tool: every top-level section of
a config document is pushed through `traverseConfig` against the same
live config object. -/
def mergeConfigDoc (camel : Bool) (doc : Doc) (config : Msg) :
    Except PyErr (Msg × List Attempt) :=
  match doc with
  | [] => .ok (config, [])
  | (k, v) :: rest => do
    let (_, t, atts) ← traverseConfig camel k v config
    let (t2, atts2) ← mergeConfigDoc camel rest t
    .ok (t2, atts ++ atts2)

/-- Base64 alphabet character for a 6-bit value. -/
def b64Char (n : Nat) : Char :=
  if n < 26 then Char.ofNat (65 + n)
  else if n < 52 then Char.ofNat (97 + (n - 26))
  else if n < 62 then Char.ofNat (48 + (n - 52))
  else if n = 62 then '+' else '/'

/-- Standard base64 encoding of a byte list, with `'='` padding. -/
def b64Chunks : List Nat → List Char
  | b1 :: b2 :: b3 :: rest =>
    b64Char (b1 / 4) :: b64Char ((b1 % 4) * 16 + b2 / 16) ::
      b64Char ((b2 % 16) * 4 + b3 / 64) :: b64Char (b3 % 64) :: b64Chunks rest
  | [b1, b2] =>
    [b64Char (b1 / 4), b64Char ((b1 % 4) * 16 + b2 / 16), b64Char ((b2 % 16) * 4), '=']
  | [b1] => [b64Char (b1 / 4), b64Char ((b1 % 4) * 16), '=', '=']
  | [] => []

/-- Base64 encoding as a string. -/
def b64 (bs : List Nat) : String := String.mk (b64Chunks bs)

/-- Rendering of one scalar primitive value in the exported document:
bytes become their base64 string, everything else passes through. -/
def renderPrim : PVal → PVal
  | .vbytes bs => .vstr (b64 bs)
  | v => v

/-- The symbol name of an enum code; serialization fails on a code absent
from the table. -/
def enumName (tbl : List EnumEntry) (c : Int) : Except PyErr String :=
  match tbl.find? (fun en => en.number == c) with
  | some en => .ok en.name
  | none => .error .valueError

/-- Rendering of one element of a repeated field. -/
def renderRepElem (ety : ETy) (v : PVal) : Except PyErr PVal :=
  match ety with
  | .p _ => .ok (renderPrim v)
  | .e tbl =>
    match v with
    | .vint n => (enumName tbl n).map PVal.vstr
    | _ => .error .valueError

mutual
/-- The rendering of one live slot in the exported document: `none` for
default-valued fields that `MessageToDict` omits (zero scalars, zero
enums, empty repeated fields, all-default submessages), otherwise the
document value — enums by symbol name, bytes as base64 strings. -/
def slotToDocV : Slot → Except PyErr (Option DocV)
  | .prim ty v =>
    if v = ty.zeroVal then .ok none
    else .ok (some (DocV.leaf (renderPrim v)))
  | .enum tbl c =>
    if c = 0 then .ok none
    else do
      let nm ← enumName tbl c
      .ok (some (DocV.leaf (.vstr nm)))
  | .rep ety vs =>
    if vs = [] then .ok none
    else do
      let rs ← vs.mapM (renderRepElem ety)
      .ok (some (DocV.leaf (.vlist rs)))
  | .sub m => do
    let d ← msgToDictSub m
    if d = [] then .ok none else .ok (some (DocV.sub d))

/-- The field loop of the export walk: emits a camel-case key for every
slot that `slotToDocV` does not omit. -/
def msgToDictSub : Msg → Except PyErr Doc
  | [] => .ok []
  | (n, s) :: rest => do
    let tail ← msgToDictSub rest
    match ← slotToDocV s with
    | none => .ok tail
    | some dv => .ok ((snake_to_camel n, dv) :: tail)
end

/-- Modelled from the spec, section 4.5, and the protobuf JSON mapping
used by `MessageToDict`: a depth-first walk of the live tree emitting
camel-case keys, omitting default-valued fields (zero scalars, zero
enums, empty repeated fields, all-default submessages), rendering enums
by symbol name and bytes as base64 strings. -/
def msgToDict (m : Msg) : Except PyErr Doc := msgToDictSub m

/-- Lookup of a key in a document node. -/
def docGet (d : Doc) (k : String) : Option DocV :=
  match d with
  | [] => none
  | (k', v) :: rest => if k' = k then some v else docGet rest k

/-- Replacement of the value at a key in a document node. -/
def docSet (d : Doc) (k : String) (v : DocV) : Doc :=
  match d with
  | [] => []
  | (k', v') :: rest => if k' = k then (k', v) :: rest else (k', v') :: docSet rest k v

/-- Prepends the secret marker to a textual document value; concatenating
onto a non-string raises `TypeError`. -/
def markB64 (v : DocV) : Except PyErr DocV :=
  match v with
  | .leaf (.vstr s) => .ok (.leaf (.vstr ("base64:" ++ s)))
  | _ => .error .typeError

/-- Marking of one element of the `adminKey` list. -/
def markElem : PVal → Except PyErr PVal
  | .vstr s => .ok (.vstr ("base64:" ++ s))
  | _ => .error .typeError

/-- The key-material marking of `ex_config`: inside the `security`
mapping, `privateKey` and `publicKey` values and every element of the
`adminKey` list are prefixed with the `base64:` marker. -/
def redactKeys (sd : Doc) : Except PyErr Doc := do
  let sd1 ←
    match docGet sd "privateKey" with
    | some v => do
      let v' ← markB64 v
      pure (docSet sd "privateKey" v')
    | none => pure sd
  let sd2 ←
    match docGet sd1 "publicKey" with
    | some v => do
      let v' ← markB64 v
      pure (docSet sd1 "publicKey" v')
    | none => pure sd1
  match docGet sd2 "adminKey" with
  | some (.leaf (.vlist xs)) => do
    let xs' ← xs.mapM markElem
    pure (docSet sd2 "adminKey" (.leaf (.vlist xs')))
  | some _ => .error .typeError
  | none => pure sd2

/-- The net effect of the `ex_config` redaction loop on the exported
config section: the `security` submapping has its key material marked;
other sections pass through.  (A non-mapping `security` value is left
alone: the Python membership tests find no keys in it.) -/
def redactSecurity (cfg : Doc) : Except PyErr Doc :=
  cfg.mapM (fun kv =>
    if kv.1 = "security" then
      match kv.2 with
      | .sub sd => do
        let sd' ← redactKeys sd
        pure (kv.1, DocV.sub sd')
      | v => pure (kv.1, v)
    else pure kv)

/-- Truthiness of an optional string (Python `if s:`). -/
def optTruthyS : Option String → Bool
  | none => false
  | some s => s != ""

/-- Truthiness of an optional value (Python `if v:`). -/
def optTruthyV : Option PVal → Bool
  | none => false
  | some v => pyTruthy v

/-- Python `v or float(0)` on an optional coordinate. -/
def orFloat0 (o : Option PVal) : PVal :=
  match o with
  | some v => if pyTruthy v then v else .vfloat 0 0
  | none => .vfloat 0 0

/-- The collaborator-facing state `ex_config` reads: owner accessors,
channel locator, position, and the two live config trees. -/
structure Iface where
  owner : Option String
  ownerShort : Option String
  channelUrl : Option String
  lat : Option PVal
  lon : Option PVal
  alt : Option PVal
  localConfig : Msg
  moduleConfig : Msg

/-- Python `len()` of a document value (for the module-config filter). -/
def pyLenDocV : DocV → Except PyErr Nat
  | .sub d => .ok d.length
  | .leaf (.vstr s) => .ok s.length
  | .leaf (.vlist xs) => .ok xs.length
  | .leaf (.vbytes bs) => .ok bs.length
  | .leaf _ => .error .typeError

/-- The module-config loop of `ex_config`: keep entries whose value has
positive length. -/
def filterNonEmpty : Doc → Except PyErr Doc
  | [] => .ok []
  | (k, v) :: rest => do
    let n ← pyLenDocV v
    let tail ← filterNonEmpty rest
    if n > 0 then .ok ((k, v) :: tail) else .ok tail

/-- The document assembled by `ex_config` (before the YAML banner and
serialization): optional owner / owner_short / channel url keys, the
guarded `location` object, the redacted `config` section from the local
config tree, and the length-filtered `module_config` section. -/
def exConfigObj (camel : Bool) (i : Iface) : Except PyErr Doc := do
  let base : Doc :=
    (match i.owner with
     | some s => if s ≠ "" then [("owner", DocV.leaf (.vstr s))] else []
     | none => []) ++
    (match i.ownerShort with
     | some s => if s ≠ "" then [("owner_short", DocV.leaf (.vstr s))] else []
     | none => []) ++
    (match i.channelUrl with
     | some s =>
       if s ≠ "" then
         [((if camel then "channelUrl" else "channel_url"), DocV.leaf (.vstr s))]
       else []
     | none => []) ++
    (if optTruthyV i.lat || optTruthyV i.lon then
      [("location", DocV.sub
        ([("lat", DocV.leaf (orFloat0 i.lat)), ("lon", DocV.leaf (orFloat0 i.lon))] ++
          (match i.alt with
           | some av => if pyTruthy av then [("alt", DocV.leaf av)] else []
           | none => [])))]
     else [])
  let cfg ← msgToDict i.localConfig
  let withCfg ←
    if cfg = [] then pure base
    else do
      let cfg' ← redactSecurity cfg
      pure (base ++ [("config", DocV.sub cfg')])
  let mc ← msgToDict i.moduleConfig
  if mc = [] then .ok withCfg
  else do
    let prefs ← filterNonEmpty mc
    .ok (withCfg ++ [("module_config", DocV.sub prefs)])

/-- The config section of an exported document (empty when absent), as
re-imported by the `configure` tool's merge loop. -/
def configSection (d : Doc) : Doc :=
  match docGet d "config" with
  | some (.sub c) => c
  | _ => []

/-- A string is its character list repackaged. -/
theorem string_mk_toList : ∀ s : String, String.mk s.toList = s := fun ⟨_⟩ => rfl

/-- `splitOnChar` never returns an empty group list. -/
theorem splitOnChar_ne_nil (c : Char) : ∀ l : List Char, splitOnChar c l ≠ []
  | [] => by simp [splitOnChar]
  | x :: xs => by
    simp only [splitOnChar]
    split
    · simp
    · cases h : splitOnChar c xs with
      | nil => exact absurd h (splitOnChar_ne_nil c xs)
      | cons g gs => simp

/-- Splitting a list that does not contain the separator yields the one
original group. -/
theorem splitOnChar_of_not_mem (c : Char) :
    ∀ l : List Char, c ∉ l → splitOnChar c l = [l]
  | [], _ => rfl
  | x :: xs, h => by
    have hx : ¬(x = c) := fun he => h (he ▸ List.mem_cons_self x xs)
    have hxs : c ∉ xs := fun hm => h (List.mem_cons_of_mem x hm)
    simp only [splitOnChar, if_neg hx, splitOnChar_of_not_mem c xs hxs]

/-- Splitting a list that contains the separator yields at least two
groups. -/
theorem splitOnChar_mem_length (c : Char) :
    ∀ l : List Char, c ∈ l → 2 ≤ (splitOnChar c l).length
  | x :: xs, h => by
    simp only [splitOnChar]
    split
    · have := splitOnChar_ne_nil c xs
      cases hs : splitOnChar c xs with
      | nil => exact absurd hs this
      | cons g gs => simp
    · rename_i hx
      have hxs : c ∈ xs := by
        rcases List.mem_cons.mp h with h1 | h2
        · exact absurd h1.symm hx
        · exact h2
      have := splitOnChar_mem_length c xs hxs
      cases hs : splitOnChar c xs with
      | nil => exact absurd hs (splitOnChar_ne_nil c xs)
      | cons g gs =>
        rw [hs] at this
        simpa using this

/-- C7: a separator-free name splits into the two-element list
`[name, name]` (the same name as both category and leaf), and a dotted
name splits into its `'.'`-separated segments in order, of which there
are at least two. -/
theorem C7_splitCompoundName_normalization (s : String) :
    ('.' ∉ s.toList → splitCompoundName s = [s, s]) ∧
    ('.' ∈ s.toList → splitCompoundName s = pySplitDot s ∧ 2 ≤ (pySplitDot s).length) := by
  constructor
  · intro h
    unfold splitCompoundName pySplitDot
    rw [splitOnChar_of_not_mem '.' s.toList h]
    simp [string_mk_toList]
  · intro h
    have hlen : 2 ≤ (pySplitDot s).length := by
      unfold pySplitDot
      rw [List.length_map]
      exact splitOnChar_mem_length '.' s.toList h
    refine ⟨?_, hlen⟩
    unfold splitCompoundName
    rw [if_neg (by omega)]

/-- Witness for C7 at concrete inputs. -/
theorem C7_witness :
    splitCompoundName "lora" = ["lora", "lora"] ∧
    splitCompoundName "device.role" = ["device", "role"] := by
  constructor
  · exact (C7_splitCompoundName_normalization "lora").1 (by decide)
  · exact (((C7_splitCompoundName_normalization "device.role").2 (by decide)).1).trans (by decide)

/-- An entry found by descriptor lookup carries its own key, and `getattr`
agrees with it. -/
theorem msgGet_of_entry : ∀ (m : Msg) (n : String) (s : Slot),
    msgGetEntry m n = some (n, s) → msgGet m n = some s
  | [], _, _, h => by simp [msgGetEntry] at h
  | (n', s') :: rest, n, s, h => by
    by_cases hn : n' = n
    · simp only [msgGetEntry, if_pos hn, Option.some.injEq, Prod.mk.injEq] at h
      simp only [msgGet, if_pos hn]
      rw [h.2]
    · simp only [msgGetEntry, if_neg hn] at h
      simp only [msgGet, if_neg hn]
      exact msgGet_of_entry rest n s h

/-- C6: for a `wifi_psk` field nested in a message section and holding a
string slot, a textual raw value shorter than 8 characters is rejected
with the warning before any mutation (the tree is returned unmodified),
while a textual value of length at least 8 passes the length check and
the assignment succeeds. -/
theorem C6_wifi_psk_validation (camel : Bool) (config : Msg) (path sn : String)
    (sm : Msg) (cur : PVal) (s : String)
    (hsplit : splitCompoundName path = [sn, "wifi_psk"])
    (hct : msgGetEntry config sn = some (sn, .sub sm))
    (hpf : msgGetEntry sm "wifi_psk" = some ("wifi_psk", .prim .tstr cur)) :
    (s.length < 8 →
      setPref camel config path (.vstr s) =
        .ok ⟨false, config, ["Warning: network.wifi_psk must be 8 or more characters."]⟩) ∧
    (8 ≤ s.length →
      ∃ t msgs, setPref camel config path (.vstr s) = .ok ⟨true, t, msgs⟩) := by
  have hsm : camel_to_snake "wifi_psk" = "wifi_psk" := by decide
  have hget : msgGet config sn = some (.sub sm) := msgGet_of_entry config sn _ hct
  have hgetf : msgGet sm "wifi_psk" = some (.prim .tstr cur) :=
    msgGet_of_entry sm "wifi_psk" _ hpf
  constructor
  · intro hlen
    unfold setPref
    rw [hsplit]
    simp only [lastD, List.headD, List.drop, List.dropLast, hsm, hct, resolveMiddle, hpf]
    rw [if_pos ⟨by trivial, by simpa [pstr] using hlen⟩]
  · intro hlen
    unfold setPref
    rw [hsplit]
    simp only [lastD, List.headD, List.drop, List.dropLast, hsm, hct, resolveMiddle, hpf]
    rw [if_neg (by simp only [pstr, not_and]; intro; omega)]
    simp only [coerceRaw]
    cases hv : fromStr s with
    | vstr s' =>
      simp only [setPrefAssign, setViaContainer, getMsgAt, hget, hgetf, setattrMsg, storePrim,
        Except.map, bind, Except.bind]
      exact ⟨_, _, rfl⟩
    | vbool b =>
      simp only [setPrefAssign, setViaContainer, getMsgAt, hget, hgetf, setattrMsg, storePrim,
        Except.map, bind, Except.bind, pstr]
      exact ⟨_, _, rfl⟩
    | vint n =>
      simp only [setPrefAssign, setViaContainer, getMsgAt, hget, hgetf, setattrMsg, storePrim,
        Except.map, bind, Except.bind, pstr]
      exact ⟨_, _, rfl⟩
    | vfloat m k =>
      simp only [setPrefAssign, setViaContainer, getMsgAt, hget, hgetf, setattrMsg, storePrim,
        Except.map, bind, Except.bind, pstr]
      exact ⟨_, _, rfl⟩
    | vbytes bs =>
      simp only [setPrefAssign, setViaContainer, getMsgAt, hget, hgetf, setattrMsg, storePrim,
        Except.map, bind, Except.bind, pstr]
      exact ⟨_, _, rfl⟩
    | vlist xs =>
      simp only [setPrefAssign, setViaContainer, getMsgAt, hget, hgetf, setattrMsg, storePrim,
        Except.map, bind, Except.bind, pstr]
      exact ⟨_, _, rfl⟩

/-- The sorted diagnostic list of valid enum symbol names. -/
def sortedEnumNames (tbl : List EnumEntry) : List String :=
  pySorted (tbl.map (fun en => en.name))

/-- C4: for an enum field resolved through a message section, a string
value still textual after primitive coercion is looked up in the enum
table; a known symbol is converted to its integral code and assigned,
while an unknown symbol makes `setPref` return `false` with a diagnostic
listing all valid symbol names in sorted order, leaving the tree
unmodified. -/
theorem C4_enum_coercion (camel : Bool) (config : Msg) (path sn fn : String)
    (sm : Msg) (tbl : List EnumEntry) (c0 : Int) (sym : String)
    (hsplit : splitCompoundName path = [sn, fn])
    (hfn : camel_to_snake fn = fn)
    (hwifi : fn ≠ "wifi_psk")
    (hct : msgGetEntry config sn = some (sn, .sub sm))
    (hpf : msgGetEntry sm fn = some (fn, .enum tbl c0))
    (hstr : fromStr sym = .vstr sym) :
    (∀ en, tbl.find? (fun e => e.name == sym) = some en →
      ∃ m, setPref camel config path (.vstr sym) =
        .ok ⟨true, msgSet config sn (.sub (msgSet sm fn (.enum tbl en.number))), [m]⟩) ∧
    (tbl.find? (fun e => e.name == sym) = none →
      ∃ l1, setPref camel config path (.vstr sym) =
        .ok ⟨false, config,
          [l1, "Choices in sorted order are:"] ++
            (sortedEnumNames tbl).map (fun nm => "    " ++ nm)⟩) := by
  have hget : msgGet config sn = some (.sub sm) := msgGet_of_entry config sn _ hct
  have hgetf : msgGet sm fn = some (.enum tbl c0) := msgGet_of_entry sm fn _ hpf
  constructor
  · intro en hfind
    have hmem : en ∈ tbl := List.mem_of_find?_eq_some hfind
    have hnum : enumHasNumber tbl en.number = true := by
      simp only [enumHasNumber, List.any_eq_true]
      exact ⟨en, hmem, by simp⟩
    have key : setPref camel config path (.vstr sym) =
        .ok ⟨true, msgSet config sn (.sub (msgSet sm fn (.enum tbl en.number))),
          ["Set " ++ (String.intercalate "." [sn] ++ ".") ++
            (if camel then snake_to_camel fn else fn) ++ " to " ++ sym]⟩ := by
      unfold setPref
      rw [hsplit]
      simp only [lastD, List.headD, List.drop, List.dropLast, hfn, hct, resolveMiddle, hpf]
      rw [if_neg (fun h => hwifi h.1)]
      simp only [coerceRaw, hstr]
      simp only [hfind, setPrefAssign, setViaContainer, getMsgAt, hget, hgetf, setattrMsg,
        storeEnum, if_pos hnum, Except.map, bind, Except.bind, writeBack, pstr,
        List.dropLast]
    exact ⟨_, key⟩
  · intro hfind
    have key : setPref camel config path (.vstr sym) =
        .ok ⟨false, config,
          [sn ++ "." ++ (if camel then snake_to_camel fn else fn) ++
             " does not have an enum called " ++ sym ++ ", so you can not set it.",
           "Choices in sorted order are:"] ++
            (sortedEnumNames tbl).map (fun nm => "    " ++ nm)⟩ := by
      unfold setPref
      rw [hsplit]
      simp only [lastD, List.headD, List.drop, List.dropLast, hfn, hct, resolveMiddle, hpf]
      rw [if_neg (fun h => hwifi h.1)]
      simp only [coerceRaw, hstr]
      simp only [hfind]
      rfl
    exact ⟨_, key⟩

/-- The enum table of the claim's worked example. -/
def lmhTbl : List EnumEntry := [⟨"LOW", 0⟩, ⟨"MEDIUM", 1⟩, ⟨"HIGH", 2⟩]

/-- A one-section schema holding the example enum field. -/
def lmhSchema : Msg := [("radio", .sub [("power_level", .enum lmhTbl 0)])]

/-- Witness for C4: `"MEDIUM"` coerces to code 1 and is assigned;
`"BOGUS"` is rejected and the diagnostic enumerates exactly
`["HIGH", "LOW", "MEDIUM"]` in sorted order. -/
theorem C4_witness :
    (∃ m, setPref false lmhSchema "radio.power_level" (.vstr "MEDIUM") =
      .ok ⟨true, [("radio", .sub [("power_level", .enum lmhTbl 1)])], [m]⟩) ∧
    (∃ l1, setPref false lmhSchema "radio.power_level" (.vstr "BOGUS") =
      .ok ⟨false, lmhSchema,
        [l1, "Choices in sorted order are:"] ++
          ["    HIGH", "    LOW", "    MEDIUM"]⟩) := by
  have h := C4_enum_coercion false lmhSchema "radio.power_level" "radio" "power_level"
    [("power_level", .enum lmhTbl 0)] lmhTbl 0 "MEDIUM"
    (by decide) (by decide) (by decide) (by decide) (by decide) (by rfl)
  have h2 := C4_enum_coercion false lmhSchema "radio.power_level" "radio" "power_level"
    [("power_level", .enum lmhTbl 0)] lmhTbl 0 "BOGUS"
    (by decide) (by decide) (by decide) (by decide) (by decide) (by rfl)
  constructor
  · obtain ⟨m, hm⟩ := h.1 ⟨"MEDIUM", 1⟩ (by decide)
    refine ⟨m, ?_⟩
    rw [hm]
    rfl
  · obtain ⟨l1, hl⟩ := h2.2 (by decide)
    refine ⟨l1, ?_⟩
    have hs : (sortedEnumNames lmhTbl).map (fun nm => "    " ++ nm) =
        ["    HIGH", "    LOW", "    MEDIUM"] := by decide
    rw [hl, hs]

/-- A network section schema with the pre-shared key field. -/
def netSchema : Msg :=
  [("network", .sub [("wifi_ssid", .prim .tstr (.vstr "")),
     ("wifi_psk", .prim .tstr (.vstr ""))])]

/-- Witness for C6: `"short"` (5 chars) is rejected leaving the tree
unchanged; `"longenough"` (10 chars) is accepted. -/
theorem C6_witness :
    setPref false netSchema "network.wifi_psk" (.vstr "short") =
      .ok ⟨false, netSchema, ["Warning: network.wifi_psk must be 8 or more characters."]⟩ ∧
    (∃ t msgs, setPref false netSchema "network.wifi_psk" (.vstr "longenough") =
      .ok ⟨true, t, msgs⟩) := by
  constructor
  · exact (C6_wifi_psk_validation false netSchema "network.wifi_psk" "network"
      [("wifi_ssid", .prim .tstr (.vstr "")), ("wifi_psk", .prim .tstr (.vstr ""))]
      (.vstr "") "short" (by decide) (by decide) (by decide)).1 (by decide)
  · exact (C6_wifi_psk_validation false netSchema "network.wifi_psk" "network"
      [("wifi_ssid", .prim .tstr (.vstr "")), ("wifi_psk", .prim .tstr (.vstr ""))]
      (.vstr "") "longenough" (by decide) (by decide) (by decide)).2 (by decide)

/-- Mapping the primitive parser over a list of raw strings never fails. -/
theorem mapM_fromStrV_strings : ∀ ss : List String,
    (ss.map PVal.vstr).mapM fromStrV = .ok (ss.map fromStr)
  | [] => rfl
  | s :: ss => by
    simp only [List.map, List.mapM_cons, fromStrV, mapM_fromStrV_strings ss,
      bind, Except.bind, pure, Except.pure]

/-- C3: the three repeated-field coercion policies of `setPref` for a
primitive repeated field nested in a message section, selected by the
shape of the raw value: a sequence of strings replaces the contents with
the elementwise-parsed values (no merge with the prior contents); a
scalar equal to `0` clears the field; any other scalar is appended after
the existing zero / empty-string / empty-bytes sentinels are filtered
out. -/
theorem C3_repeated_policies (camel : Bool) (config : Msg) (path sn fn : String)
    (sm : Msg) (pt : PTy) (vs0 : List PVal)
    (hsplit : splitCompoundName path = [sn, fn])
    (hfn : camel_to_snake fn = fn)
    (hwifi : fn ≠ "wifi_psk")
    (hct : msgGetEntry config sn = some (sn, .sub sm))
    (hpf : msgGetEntry sm fn = some (fn, .rep (.p pt) vs0)) :
    (∀ (ss : List String) (stored : List PVal),
      (ss.map fromStr).mapM (storeRepElem (.p pt)) = .ok stored →
      ∃ m, setPref camel config path (.vlist (ss.map PVal.vstr)) =
        .ok ⟨true, putRep config sn fn (.p pt) stored, [m]⟩) ∧
    (∀ raw, pyEq (coerceRaw raw) (.vint 0) = true →
      setPref camel config path raw =
        .ok ⟨true, putRep config sn fn (.p pt) [], ["Clearing " ++ fn ++ " list"]⟩) ∧
    (∀ (raw : PVal) (stored : List PVal), pyEq (coerceRaw raw) (.vint 0) = false →
      (∀ xs, coerceRaw raw ≠ .vlist xs) →
      (sentinelFree vs0 ++ [coerceRaw raw]).mapM (storeRepElem (.p pt)) = .ok stored →
      setPref camel config path raw =
        .ok ⟨true, putRep config sn fn (.p pt) stored,
          ["Adding '" ++ pstr raw ++ "' to the " ++ fn ++ " list"]⟩) := by
  have hget : msgGet config sn = some (.sub sm) := msgGet_of_entry config sn _ hct
  have hgetf : msgGet sm fn = some (.rep (.p pt) vs0) := msgGet_of_entry sm fn _ hpf
  have hrep : getRep config sn fn = .ok ((.p pt), vs0) := by
    simp only [getRep, hget, hgetf]
  refine ⟨?_, ?_, ?_⟩
  · intro ss stored hstore
    have key : setPref camel config path (.vlist (ss.map PVal.vstr)) =
        .ok ⟨true, putRep config sn fn (.p pt) stored,
          ["Set " ++ (String.intercalate "." [sn] ++ ".") ++
            (if camel then snake_to_camel fn else fn) ++ " to " ++
            pstr (.vlist (ss.map PVal.vstr))]⟩ := by
      unfold setPref
      rw [hsplit]
      simp only [lastD, List.headD, List.drop, List.dropLast, hfn, hct, resolveMiddle, hpf]
      rw [if_neg (fun h => hwifi h.1)]
      simp only [coerceRaw, setPrefAssign, mapM_fromStrV_strings ss, hrep, hstore,
        bind, Except.bind, List.dropLast]
    exact ⟨_, key⟩
  · intro raw hz
    unfold setPref
    rw [hsplit]
    simp only [lastD, List.headD, List.drop, List.dropLast, hfn, hct, resolveMiddle, hpf]
    rw [if_neg (fun h => hwifi h.1)]
    cases hv : coerceRaw raw with
    | vlist xs => rw [hv] at hz; simp [pyEq, numView] at hz
    | vstr s' => rw [hv] at hz; simp [pyEq, numView] at hz
    | vbool b =>
      rw [hv] at hz
      simp only [hv, setPrefAssign, hrep, bind, Except.bind]
      rw [if_pos hz]
    | vint n =>
      rw [hv] at hz
      simp only [hv, setPrefAssign, hrep, bind, Except.bind]
      rw [if_pos hz]
    | vfloat m k =>
      rw [hv] at hz
      simp only [hv, setPrefAssign, hrep, bind, Except.bind]
      rw [if_pos hz]
    | vbytes bs => rw [hv] at hz; simp [pyEq, numView] at hz
  · intro raw stored hz hnl hstore
    unfold setPref
    rw [hsplit]
    simp only [lastD, List.headD, List.drop, List.dropLast, hfn, hct, resolveMiddle, hpf]
    rw [if_neg (fun h => hwifi h.1)]
    cases hv : coerceRaw raw with
    | vlist xs => exact absurd hv (hnl xs)
    | vstr s' =>
      rw [hv] at hz hstore
      simp only [hv, setPrefAssign, hrep, bind, Except.bind, hstore]
      rw [if_neg (by simp [hz])]
    | vbool b =>
      rw [hv] at hz hstore
      simp only [hv, setPrefAssign, hrep, bind, Except.bind, hstore]
      rw [if_neg (by simp [hz])]
    | vint n =>
      rw [hv] at hz hstore
      simp only [hv, setPrefAssign, hrep, bind, Except.bind, hstore]
      rw [if_neg (by simp [hz])]
    | vfloat m k =>
      rw [hv] at hz hstore
      simp only [hv, setPrefAssign, hrep, bind, Except.bind, hstore]
      rw [if_neg (by simp [hz])]
    | vbytes bs =>
      rw [hv] at hz hstore
      simp only [hv, setPrefAssign, hrep, bind, Except.bind, hstore]
      rw [if_neg (by simp [hz])]

/-- A schema with a repeated string field currently holding `["", "b"]`. -/
def repSchema : Msg :=
  [("sec", .sub [("names", .rep (.p .tstr) [.vstr "", .vstr "b"])])]

/-- Witness for C3: on the field holding `["", "b"]`, scalar `"c"` yields
`["b", "c"]` (empty sentinel filtered, new value appended), scalar `0`
clears the field, and the list `["x", "y"]` replaces it verbatim. -/
theorem C3_witness :
    setPref false repSchema "sec.names" (.vstr "c") =
      .ok ⟨true, [("sec", .sub [("names", .rep (.p .tstr) [.vstr "b", .vstr "c"])])],
        ["Adding 'c' to the names list"]⟩ ∧
    setPref false repSchema "sec.names" (.vint 0) =
      .ok ⟨true, [("sec", .sub [("names", .rep (.p .tstr) [])])],
        ["Clearing names list"]⟩ ∧
    (∃ m, setPref false repSchema "sec.names" (.vlist [.vstr "x", .vstr "y"]) =
      .ok ⟨true, [("sec", .sub [("names", .rep (.p .tstr) [.vstr "x", .vstr "y"])])], [m]⟩) := by
  have h := C3_repeated_policies false repSchema "sec.names" "sec" "names"
    [("names", .rep (.p .tstr) [.vstr "", .vstr "b"])] .tstr [.vstr "", .vstr "b"]
    (by decide) (by decide) (by decide) (by decide) (by decide)
  have hcr : coerceRaw (.vstr "c") = .vstr "c" := by decide
  refine ⟨?_, ?_, ?_⟩
  · have := h.2.2 (.vstr "c") [.vstr "b", .vstr "c"] (by decide)
      (fun xs hx => by rw [hcr] at hx; cases hx) (by rfl)
    rw [this]
    rfl
  · have := h.2.1 (.vint 0) (by decide)
    rw [this]
    rfl
  · obtain ⟨m, hm⟩ := h.1 ["x", "y"] [.vstr "x", .vstr "y"] (by rfl)
    simp only [List.map] at hm
    refine ⟨m, ?_⟩
    rw [hm]
    rfl

/-- A schema with one message section under a canonical snake-case name. -/
def c2Schema : Msg := [("my_config", .sub [("the_x", .prim .tint (.vint 0))])]

/-- Counterexample to C2 as stated: the first path segment is *not*
converted to canonical form before lookup.  `"myConfig"` is the camel
rendering of the section `"my_config"`, yet `setPref` fails to resolve
`"myConfig.the_x"` (returning `false` and leaving the tree untouched),
while the canonical spelling succeeds. -/
theorem C2_counterexample :
    camel_to_snake "myConfig" = "my_config" ∧
    setPref false c2Schema "myConfig.the_x" (.vint 1) = .ok ⟨false, c2Schema, []⟩ ∧
    setPref false c2Schema "my_config.the_x" (.vint 1) =
      .ok ⟨true, [("my_config", .sub [("the_x", .prim .tint (.vint 1))])],
        ["Set my_config.the_x to 1"]⟩ := by
  refine ⟨by decide, by decide, by decide⟩

/-- C2 amended: segments after the first are converted to canonical form
before lookup (the terminal segment may arrive in either convention),
but the first segment is looked up verbatim against the schema, so a
compound path resolves only when its first segment is already the
canonical section name: with the camel-case flag off, a path with a
camel-like leaf behaves exactly like the canonical path, and any path
whose verbatim first segment is not a key of the schema is rejected with
the tree unchanged. -/
theorem C2_amended_first_segment_verbatim (config : Msg) (p1 pc : String)
    (sn fn fnC : String) (raw : PVal)
    (hsplit1 : splitCompoundName p1 = [sn, fnC])
    (hsplitc : splitCompoundName pc = [sn, fn])
    (hcs : camel_to_snake fnC = fn)
    (hfn : camel_to_snake fn = fn) :
    (setPref false config p1 raw = setPref false config pc raw) ∧
    (∀ (p2 c : String) (rest : List String), splitCompoundName p2 = c :: rest →
      msgGetEntry config c = none →
      setPref false config p2 raw = .ok ⟨false, config, []⟩) := by
  constructor
  · have hname : ∀ (part : Option String) (ctName : String) (ctSlot : Slot)
        (prefName : String) (prefSlot : Slot) (v : PVal),
        setPrefAssign false config [sn, fnC] fn fn part ctName ctSlot prefName prefSlot raw v =
        setPrefAssign false config [sn, fn] fn fn part ctName ctSlot prefName prefSlot raw v := by
      intro part ctName ctSlot prefName prefSlot v
      unfold setPrefAssign
      simp only [List.dropLast]
    unfold setPref
    rw [hsplit1, hsplitc]
    simp only [lastD, List.headD, List.drop, List.dropLast, hcs, hfn,
      show ∀ a b : String, (if false = true then a else b) = b from fun a b => by simp]
    simp only [hname]
  · intro p2 c rest hsplit2 hnone
    unfold setPref
    rw [hsplit2]
    simp only [List.headD, hnone]

/-- Witness for the amended C2: the camel leaf resolves like the
canonical leaf, and an unknown verbatim first segment is rejected. -/
theorem C2_amended_witness :
    setPref false c2Schema "my_config.theX" (.vint 1) =
      setPref false c2Schema "my_config.the_x" (.vint 1) ∧
    setPref false c2Schema "myConfig.the_x" (.vint 1) = .ok ⟨false, c2Schema, []⟩ := by
  have h := C2_amended_first_segment_verbatim c2Schema "my_config.theX" "my_config.the_x"
    "my_config" "the_x" "theX" (.vint 1) (by decide) (by decide) (by decide) (by decide)
  exact ⟨h.1, h.2 "myConfig.the_x" "myConfig" ["the_x"] (by decide) (by decide)⟩

/-- A schema with one standalone scalar field directly at the root (the
"standalone like ChannelSettings" case in the source's comment). -/
def aloneSchema : Msg := [("the_name", .prim .tstr (.vstr ""))]

/-- Counterexample to C5 as stated: for a standalone (non-message-nested)
field, the guessed-type assignment fails structurally, and a retry of the
same assignment with the string form would succeed — but `setPref`
instead performs the retry through the message-container path, which
raises `AttributeError` on the scalar, so the call errors out rather than
succeeding via the verbatim-string retry. -/
theorem C5_counterexample :
    storePrim .tstr (.vint 123) = .error .typeError ∧
    storePrim .tstr (.vstr (pstr (.vint 123))) = .ok (.vstr "123") ∧
    setPref false aloneSchema "the_name" (.vint 123) = .error .attrError := by
  refine ⟨by decide, by decide, by decide⟩

/-- C5 amended: for a non-repeated primitive field reached *through a
message container*, the two-phase fallback holds: when the coerced
best-guess-typed value is structurally rejected, `setPref` retries the
same assignment with the verbatim string form, and a failure is surfaced
to the caller only if that string retry also fails. -/
theorem C5_amended_two_phase_nested (camel : Bool) (config : Msg) (path sn fn : String)
    (sm : Msg) (pt : PTy) (d : PVal) (raw : PVal)
    (hsplit : splitCompoundName path = [sn, fn])
    (hfn : camel_to_snake fn = fn)
    (hwifi : fn ≠ "wifi_psk")
    (hct : msgGetEntry config sn = some (sn, .sub sm))
    (hpf : msgGetEntry sm fn = some (fn, .prim pt d))
    (hraw : coerceRaw raw = raw)
    (hfail : storePrim pt raw = .error .typeError) :
    (∀ w, storePrim pt (.vstr (pstr raw)) = .ok w →
      ∃ m, setPref camel config path raw =
        .ok ⟨true, msgSet config sn (.sub (msgSet sm fn (.prim pt w))), [m]⟩) ∧
    (∀ e, storePrim pt (.vstr (pstr raw)) = .error e →
      setPref camel config path raw = .error e) := by
  have hget : msgGet config sn = some (.sub sm) := msgGet_of_entry config sn _ hct
  have hgetf : msgGet sm fn = some (.prim pt d) := msgGet_of_entry sm fn _ hpf
  constructor
  · intro w hw
    have key : setPref camel config path raw =
        .ok ⟨true, msgSet config sn (.sub (msgSet sm fn (.prim pt w))),
          ["Set " ++ (String.intercalate "." [sn] ++ ".") ++
            (if camel then snake_to_camel fn else fn) ++ " to " ++ pstr raw]⟩ := by
      unfold setPref
      rw [hsplit]
      simp only [lastD, List.headD, List.drop, List.dropLast, hfn, hct, resolveMiddle, hpf]
      rw [if_neg (fun h => hwifi h.1)]
      cases raw <;> simp only [coerceRaw] at hraw ⊢ <;> (try rw [hraw]) <;>
        simp only [setPrefAssign, setViaContainer, getMsgAt, hget, hgetf, setattrMsg, hfail,
          hw, Except.map, bind, Except.bind, writeBack, List.dropLast]
    exact ⟨_, key⟩
  · intro e he
    unfold setPref
    rw [hsplit]
    simp only [lastD, List.headD, List.drop, List.dropLast, hfn, hct, resolveMiddle, hpf]
    rw [if_neg (fun h => hwifi h.1)]
    cases raw <;> simp only [coerceRaw] at hraw ⊢ <;> (try rw [hraw]) <;>
      simp only [setPrefAssign, setViaContainer, getMsgAt, hget, hgetf, setattrMsg, hfail,
        he, Except.map, bind, Except.bind, writeBack]

/-- A schema with a nested string field for the fallback witness. -/
def strFieldSchema : Msg := [("sec", .sub [("note", .prim .tstr (.vstr ""))])]

/-- Witness for the amended C5: on a nested string field, the integer 5
is structurally rejected and the verbatim-string retry stores `"5"`. -/
theorem C5_amended_witness :
    ∃ m, setPref false strFieldSchema "sec.note" (.vint 5) =
      .ok ⟨true, [("sec", .sub [("note", .prim .tstr (.vstr "5"))])], [m]⟩ := by
  obtain ⟨m, hm⟩ := (C5_amended_two_phase_nested false strFieldSchema "sec.note" "sec" "note"
    [("note", .prim .tstr (.vstr ""))] .tstr (.vstr "") (.vint 5)
    (by decide) (by decide) (by decide) (by decide) (by decide) (by decide) (by decide)).1
    (.vstr "5") (by decide)
  refine ⟨m, ?_⟩
  rw [hm]
  rfl

/-- Inversion of a successful `Except` bind. -/
theorem exceptBind_ok {α β : Type} (x : Except PyErr α) (f : α → Except PyErr β) (b : β)
    (h : (bind x f : Except PyErr β) = .ok b) : ∃ a, x = .ok a ∧ f a = .ok b := by
  cases x with
  | ok a => exact ⟨a, rfl, by simpa [bind, Except.bind] using h⟩
  | error e => simp [bind, Except.bind] at h

/-- The assignment phase never reports a rejection: a normal return from
`setPrefAssign` carries `true`. -/
theorem setPrefAssign_ok_true (camel : Bool) (config : Msg) (name : List String)
    (snake_name uni_name : String) (part : Option String) (ctName : String)
    (ctSlot : Slot) (prefName : String) (prefSlot : Slot) (rawVal val' : PVal)
    (out : PrefOut)
    (h : setPrefAssign camel config name snake_name uni_name part
      ctName ctSlot prefName prefSlot rawVal val' = .ok out) : out.ok = true := by
  unfold setPrefAssign at h
  simp only [] at h
  repeat' (first
    | (obtain ⟨_, _, h⟩ := exceptBind_ok _ _ _ h)
    | split at h)
  all_goals first
    | exact Except.noConfusion h
    | (injection h with h2; cases h2; rfl)
    | simp_all

/-- C10: rejection atomicity of `setPref` — whenever the call returns
normally with `false` (unresolved path, short `wifi_psk` value, or
unknown enum symbol), the returned tree is exactly the input tree:
every rejection check happens before any mutation. -/
theorem C10_rejection_atomicity (camel : Bool) (config : Msg) (path : String) (raw : PVal)
    (out : PrefOut) (h : setPref camel config path raw = .ok out) (hfalse : out.ok = false) :
    out.tree = config := by
  unfold setPref at h
  simp only [] at h
  repeat' (first
    | (obtain ⟨_, _, h⟩ := exceptBind_ok _ _ _ h)
    | split at h)
  all_goals first
    | exact Except.noConfusion h
    | (injection h with h2; cases h2; rfl)
    | (injection h with h2; cases h2; simp at hfalse)
    | (rw [setPrefAssign_ok_true _ _ _ _ _ _ _ _ _ _ _ _ _ h] at hfalse; cases hfalse)
    | simp_all

/-- Witness for C10: a rejected unresolved path leaves the tree as it
was. -/
theorem C10_witness :
    PrefOut.tree ⟨false, c2Schema, []⟩ = c2Schema := by
  have h : setPref false c2Schema "nope.the_x" (.vint 1) = .ok ⟨false, c2Schema, []⟩ := by
    decide
  exact C10_rejection_atomicity false c2Schema "nope.the_x" (.vint 1) ⟨false, c2Schema, []⟩
    h (by rfl)

mutual
/-- The leaves of a document subtree, in traversal order, with the
compound path each one is addressed by. -/
def docLeaves (root : String) : DocV → List (String × PVal)
  | .leaf _ => []
  | .sub entries => docLeavesEntries (camel_to_snake root) entries

/-- The leaves reachable from an entry list under a snaked root. -/
def docLeavesEntries (snakeRoot : String) : List (String × DocV) → List (String × PVal)
  | [] => []
  | (k, .sub d) :: rest =>
    docLeaves (snakeRoot ++ "." ++ k) (.sub d) ++ docLeavesEntries snakeRoot rest
  | (k, .leaf v) :: rest =>
    (snakeRoot ++ "." ++ k, v) :: docLeavesEntries snakeRoot rest
end

/-- Entry-loop invariant behind C8: on a normal return of the entry loop
the attempted mutations are exactly the leaves of the entry list, in
order, regardless of the booleans the individual `setPref` calls
returned. -/
theorem travEntriesLeaves : ∀ (camel : Bool) (snakeRoot : String)
    (entries : List (String × DocV)) (config t : Msg) (atts : List Attempt),
    traverseEntries camel snakeRoot entries config = .ok (t, atts) →
    atts.map (fun a => (a.path, a.value)) = docLeavesEntries snakeRoot entries
  | camel, snakeRoot, [], config, t, atts, h => by
    unfold traverseEntries at h
    injection h with h2
    injection h2 with ht ha
    subst ht ha
    rfl
  | camel, snakeRoot, (k, .sub d) :: rest, config, t, atts, h => by
    unfold traverseEntries at h
    obtain ⟨⟨b1, t1, a1⟩, hx1, h⟩ := exceptBind_ok _ _ _ h
    obtain ⟨⟨t2, a2⟩, hx2, h⟩ := exceptBind_ok _ _ _ h
    injection h with h2
    injection h2 with ht ha
    subst ht ha
    unfold traverseConfig at hx1
    obtain ⟨⟨t0, a0⟩, hx0, hx1⟩ := exceptBind_ok _ _ _ hx1
    injection hx1 with hx2'
    injection hx2' with hb hx3'
    injection hx3' with ht1 ha1
    subst ht1 ha1
    have e1 := travEntriesLeaves camel (camel_to_snake (snakeRoot ++ "." ++ k)) d
      config t0 a0 hx0
    have e2 := travEntriesLeaves camel snakeRoot rest t0 t2 a2 hx2
    simp only [docLeavesEntries, docLeaves, List.map_append, e1, e2]
  | camel, snakeRoot, (k, .leaf v) :: rest, config, t, atts, h => by
    unfold traverseEntries at h
    obtain ⟨out, hx1, h⟩ := exceptBind_ok _ _ _ h
    obtain ⟨⟨t2, a2⟩, hx2, h⟩ := exceptBind_ok _ _ _ h
    injection h with h2
    injection h2 with ht ha
    subst ht ha
    have e2 := travEntriesLeaves camel snakeRoot rest out.tree t2 a2 hx2
    simp only [docLeavesEntries, List.map, e2]

/-- C8: whenever `traverseConfig` returns normally from a mapping
(document subtree) node, it returns `true`, and the attempted leaf
mutations are exactly the leaves of the subtree in order — a rejected
leaf (a `false` from `setPref`) does not stop the sibling leaves from
being attempted; aborting is left to the caller. -/
theorem C8_merge_attempts_all_leaves (camel : Bool) (root : String)
    (entries : List (String × DocV)) (config : Msg) (b : Bool) (t : Msg)
    (atts : List Attempt)
    (h : traverseConfig camel root (.sub entries) config = .ok (b, t, atts)) :
    b = true ∧ atts.map (fun a => (a.path, a.value)) = docLeaves root (.sub entries) := by
  unfold traverseConfig at h
  obtain ⟨⟨t0, a0⟩, hx, h⟩ := exceptBind_ok _ _ _ h
  injection h with h2
  injection h2 with hb h3
  injection h3 with ht ha
  subst hb ht ha
  exact ⟨rfl, travEntriesLeaves camel (camel_to_snake root) entries config t0 a0 hx⟩

/-- Witness for C8 at a document whose first leaf is rejected (unknown
field) and whose second leaf is applied: both are attempted, in order,
and the call returns `true`. -/
theorem C8_witness :
    true = true ∧
    ([⟨"my_config.bogus", .vint 1, false⟩,
      ⟨"my_config.the_x", .vint 2, true⟩] : List Attempt).map (fun a => (a.path, a.value)) =
      docLeaves "my_config"
        (.sub [("bogus", .leaf (.vint 1)), ("the_x", .leaf (.vint 2))]) := by
  have h : traverseConfig false "my_config"
      (.sub [("bogus", .leaf (.vint 1)), ("the_x", .leaf (.vint 2))]) c2Schema =
      .ok (true, [("my_config", .sub [("the_x", .prim .tint (.vint 2))])],
        [⟨"my_config.bogus", .vint 1, false⟩, ⟨"my_config.the_x", .vint 2, true⟩]) := by
    decide
  exact C8_merge_attempts_all_leaves false "my_config"
    [("bogus", .leaf (.vint 1)), ("the_x", .leaf (.vint 2))] c2Schema
    true _ _ h

/-- The live security section with populated key material. -/
def securityTree (pk pub : List Nat) (aks : List (List Nat)) : Msg :=
  [("security", .sub [("private_key", .prim .tbytes (.vbytes pk)),
     ("public_key", .prim .tbytes (.vbytes pub)),
     ("admin_key", .rep (.p .tbytes) (aks.map PVal.vbytes))])]

/-- Repeated bytes render elementwise to their base64 strings. -/
theorem mapM_renderRep_bytes : ∀ aks : List (List Nat),
    (aks.map PVal.vbytes).mapM (renderRepElem (.p .tbytes)) =
      .ok (aks.map (fun k => PVal.vstr (b64 k)))
  | [] => rfl
  | k :: ks => by
    simp only [List.map, List.mapM_cons, renderRepElem, renderPrim,
      mapM_renderRep_bytes ks, bind, Except.bind, pure, Except.pure]

/-- Marking every element of an already-rendered admin key list (stated
on the accumulator loop of `List.mapM`). -/
theorem mapM_markElem_b64 : ∀ (aks : List (List Nat)) (acc : List PVal),
    List.mapM.loop markElem (aks.map (fun k => PVal.vstr (b64 k))) acc =
      .ok (acc.reverse ++ aks.map (fun k => PVal.vstr ("base64:" ++ b64 k)))
  | [], acc => by
    simp [List.mapM.loop, pure, Except.pure]
  | k :: ks, acc => by
    simp only [List.map, List.mapM.loop, markElem, bind, Except.bind,
      mapM_markElem_b64 ks (PVal.vstr ("base64:" ++ b64 k) :: acc)]
    simp

/-- C9: exporting a ConfigTree whose security key material is populated
produces a document in which `privateKey` and `publicKey` are the
`base64:`-marked encodings of the raw bytes and every element of the
repeated `adminKey` list is individually marked — never the unmarked raw
value. -/
theorem C9_export_redaction (camel : Bool) (i : Iface) (pk pub : List Nat)
    (aks : List (List Nat))
    (hcfg : i.localConfig = securityTree pk pub aks)
    (hmod : i.moduleConfig = [])
    (how : i.owner = none) (hos : i.ownerShort = none) (hcu : i.channelUrl = none)
    (hlat : i.lat = none) (hlon : i.lon = none)
    (hpk : pk ≠ []) (hpub : pub ≠ []) (haks : aks ≠ []) :
    exConfigObj camel i =
      .ok [("config", DocV.sub [("security", DocV.sub
        [("privateKey", .leaf (.vstr ("base64:" ++ b64 pk))),
         ("publicKey", .leaf (.vstr ("base64:" ++ b64 pub))),
         ("adminKey", .leaf (.vlist (aks.map (fun k => PVal.vstr ("base64:" ++ b64 k)))))])])] := by
  have hd : msgToDict (securityTree pk pub aks) =
      .ok [("security", DocV.sub
        [("privateKey", .leaf (.vstr (b64 pk))),
         ("publicKey", .leaf (.vstr (b64 pub))),
         ("adminKey", .leaf (.vlist (aks.map (fun k => PVal.vstr (b64 k)))))])] := by
    simp only [securityTree, msgToDict, msgToDictSub, slotToDocV, bind, Except.bind,
      pure, Except.pure, renderPrim, mapM_renderRep_bytes, PTy.zeroVal, PVal.vbytes.injEq,
      List.map_eq_nil_iff, if_neg hpk, if_neg hpub, if_neg haks]
    rw [if_neg (by simp)]
    rfl
  unfold exConfigObj
  rw [hcfg, hmod, how, hos, hcu, hlat, hlon, hd]
  simp only [optTruthyV, bind, Except.bind, List.append_nil, List.nil_append,
    Bool.or_self, Bool.false_eq_true, if_false]
  rw [if_neg (by simp)]
  simp only [redactSecurity, redactKeys, docGet, docSet, markB64, List.mapM_cons,
    List.mapM_nil, bind, Except.bind, pure, Except.pure, mapM_markElem_b64]
  simp [docGet, docSet, markB64, markElem, mapM_markElem_b64, msgToDict, msgToDictSub,
    filterNonEmpty]

/-- Witness for C9 at concrete key bytes. -/
theorem C9_witness :
    exConfigObj false ⟨none, none, none, none, none, none,
      securityTree [1, 2, 3] [4, 5] [[7], [8, 9]], []⟩ =
      .ok [("config", DocV.sub [("security", DocV.sub
        [("privateKey", .leaf (.vstr "base64:AQID")),
         ("publicKey", .leaf (.vstr "base64:BAU=")),
         ("adminKey", .leaf (.vlist [.vstr "base64:Bw==", .vstr "base64:CAk="]))])])] := by
  have h := C9_export_redaction false ⟨none, none, none, none, none, none,
      securityTree [1, 2, 3] [4, 5] [[7], [8, 9]], []⟩ [1, 2, 3] [4, 5] [[7], [8, 9]]
    rfl rfl rfl rfl rfl rfl rfl (by simp) (by simp) (by simp)
  rw [h]
  rfl

/-- A schema with a repeated integer field inside one section. -/
def cexSchema : Msg := [("alpha", .sub [("nums", .rep (.p .tint) [])])]

/-- The external document that populates the repeated field. -/
def cexDoc : Doc := [("alpha", DocV.sub [("nums", DocV.leaf (.vlist [.vstr "5"]))])]

/-- The interface state holding a merged tree for export. -/
abbrev cexIface (t : Msg) : Iface := ⟨none, none, none, none, none, none, t, []⟩

/-- Counterexample to C1 as stated: merging a document with a repeated
integer field succeeds and populates the tree, the export succeeds, but
merging the exported document back into a fresh default tree raises
`TypeError` instead of reproducing the tree — the export renders the
repeated field as a list of integers, and the re-merge maps the primitive
*string* parser over those non-string elements.  No secret-marker
redaction is involved anywhere in this schema. -/
theorem C1_counterexample :
    mergeConfigDoc false cexDoc cexSchema =
      .ok ([("alpha", .sub [("nums", .rep (.p .tint) [.vint 5])])],
        [⟨"alpha.nums", .vlist [.vstr "5"], true⟩]) ∧
    exConfigObj false (cexIface [("alpha", .sub [("nums", .rep (.p .tint) [.vint 5])])]) =
      .ok [("config", DocV.sub [("alpha", DocV.sub
        [("nums", DocV.leaf (.vlist [.vint 5]))])])] ∧
    mergeConfigDoc false
      (configSection [("config", DocV.sub [("alpha", DocV.sub
        [("nums", DocV.leaf (.vlist [.vint 5]))])])]) cexSchema =
      .error .typeError ∧
    [("alpha", Slot.sub [("nums", Slot.rep (.p .tint) [.vint 5])])] ≠ cexSchema := by
  refine ⟨by decide, by rfl, by rfl, by decide⟩

/-- `setPref` on a two-segment path resolving to an enum field inside a
section container: a symbol present in the table is assigned as its
integral code. -/
theorem setPref_enum_container (camel : Bool) (config : Msg) (path sn fn sfn : String)
    (sm : Msg) (tbl : List EnumEntry) (c0 : Int) (sym : String) (en : EnumEntry)
    (hsplit : splitCompoundName path = [sn, fn])
    (hfn : camel_to_snake fn = sfn)
    (hwifi : sfn ≠ "wifi_psk")
    (hct : msgGetEntry config sn = some (sn, .sub sm))
    (hpf : msgGetEntry sm sfn = some (sfn, .enum tbl c0))
    (hstr : fromStr sym = .vstr sym)
    (hfind : tbl.find? (fun e => e.name == sym) = some en) :
    ∃ m, setPref camel config path (.vstr sym) =
      .ok ⟨true, msgSet config sn (.sub (msgSet sm sfn (.enum tbl en.number))), [m]⟩ := by
  have hget : msgGet config sn = some (.sub sm) := msgGet_of_entry config sn _ hct
  have hgetf : msgGet sm sfn = some (.enum tbl c0) := msgGet_of_entry sm sfn _ hpf
  have hmem : en ∈ tbl := List.mem_of_find?_eq_some hfind
  have hnum : enumHasNumber tbl en.number = true := by
    simp only [enumHasNumber, List.any_eq_true]
    exact ⟨en, hmem, by simp⟩
  have key : setPref camel config path (.vstr sym) =
      .ok ⟨true, msgSet config sn (.sub (msgSet sm sfn (.enum tbl en.number))),
        ["Set " ++ (String.intercalate "." [sn] ++ ".") ++
          (if camel then snake_to_camel fn else sfn) ++ " to " ++ sym]⟩ := by
    unfold setPref
    rw [hsplit]
    simp only [lastD, List.headD, List.drop, List.dropLast, hfn, hct, resolveMiddle, hpf]
    rw [if_neg (fun h => hwifi h.1)]
    simp only [coerceRaw, hstr]
    simp only [hfind, setPrefAssign, setViaContainer, getMsgAt, hget, hgetf, setattrMsg,
      storeEnum, if_pos hnum, Except.map, bind, Except.bind, writeBack, pstr,
      List.dropLast]
  exact ⟨_, key⟩

/-- `setPref` on a two-segment path resolving to a non-repeated primitive
field inside a section container: the coerced value is assigned when the
protobuf type accepts it. -/
theorem setPref_prim_container (camel : Bool) (config : Msg) (path sn fn sfn : String)
    (sm : Msg) (ty : PTy) (v0 : PVal) (rawv w' : PVal)
    (hsplit : splitCompoundName path = [sn, fn])
    (hfn : camel_to_snake fn = sfn)
    (hwifi : sfn ≠ "wifi_psk")
    (hct : msgGetEntry config sn = some (sn, .sub sm))
    (hpf : msgGetEntry sm sfn = some (sfn, .prim ty v0))
    (hst : storePrim ty (coerceRaw rawv) = .ok w') :
    ∃ m, setPref camel config path rawv =
      .ok ⟨true, msgSet config sn (.sub (msgSet sm sfn (.prim ty w'))), [m]⟩ := by
  have hget : msgGet config sn = some (.sub sm) := msgGet_of_entry config sn _ hct
  have hgetf : msgGet sm sfn = some (.prim ty v0) := msgGet_of_entry sm sfn _ hpf
  have key : setPref camel config path rawv =
      .ok ⟨true, msgSet config sn (.sub (msgSet sm sfn (.prim ty w'))),
        ["Set " ++ (String.intercalate "." [sn] ++ ".") ++
          (if camel then snake_to_camel fn else sfn) ++ " to " ++ pstr rawv]⟩ := by
    unfold setPref
    rw [hsplit]
    simp only [lastD, List.headD, List.drop, List.dropLast, hfn, hct, resolveMiddle, hpf]
    rw [if_neg (fun h => hwifi h.1)]
    simp only [setPrefAssign, setViaContainer, getMsgAt, hget, hgetf, setattrMsg,
      hst, Except.map, bind, Except.bind, writeBack, List.dropLast]
  exact ⟨_, key⟩


/-- `setPref` on a two-segment path resolving to a non-repeated primitive
field inside a section container, when the best-guess-typed assignment
raises `TypeError`: the verbatim-string retry is performed and its result
is stored. -/
theorem setPref_prim_container_retry (camel : Bool) (config : Msg) (path sn fn sfn : String)
    (sm : Msg) (ty : PTy) (v0 : PVal) (rawv w' : PVal)
    (hsplit : splitCompoundName path = [sn, fn])
    (hfn : camel_to_snake fn = sfn)
    (hwifi : sfn ≠ "wifi_psk")
    (hct : msgGetEntry config sn = some (sn, .sub sm))
    (hpf : msgGetEntry sm sfn = some (sfn, .prim ty v0))
    (hst1 : storePrim ty (coerceRaw rawv) = .error .typeError)
    (hst2 : storePrim ty (.vstr (pstr (coerceRaw rawv))) = .ok w') :
    ∃ m, setPref camel config path rawv =
      .ok ⟨true, msgSet config sn (.sub (msgSet sm sfn (.prim ty w'))), [m]⟩ := by
  have hget : msgGet config sn = some (.sub sm) := msgGet_of_entry config sn _ hct
  have hgetf : msgGet sm sfn = some (.prim ty v0) := msgGet_of_entry sm sfn _ hpf
  have key : setPref camel config path rawv =
      .ok ⟨true, msgSet config sn (.sub (msgSet sm sfn (.prim ty w'))),
        ["Set " ++ (String.intercalate "." [sn] ++ ".") ++
          (if camel then snake_to_camel fn else sfn) ++ " to " ++ pstr rawv]⟩ := by
    unfold setPref
    rw [hsplit]
    simp only [lastD, List.headD, List.drop, List.dropLast, hfn, hct, resolveMiddle, hpf]
    rw [if_neg (fun h => hwifi h.1)]
    simp only [setPrefAssign, setViaContainer, getMsgAt, hget, hgetf, setattrMsg,
      hst1, hst2, Except.map, bind, Except.bind, writeBack, List.dropLast]
  exact ⟨_, key⟩

/-- The form in which a raw textual value ends up stored in a string
slot: the parser's best guess is tried first (storing the string itself
when the guess is textual) and the `TypeError` fallback stores the
Python `str` of the guess otherwise — in both cases `str(fromStr s)`. -/
def wStore (s : String) : String := pstr (fromStr s)

/-- One populated configuration field of each scalar kind the merge
engine assigns non-repeatedly: boolean, integer, float, string, and
enum (the enum carries its table, its symbol name, and its code). -/
inductive FieldVal where
  | fBool (b : Bool)
  | fInt (n : Int)
  | fFloat (m : Int) (k : Nat)
  | fStr (s : String)
  | fEnum (tbl : List EnumEntry) (nm : String) (c : Int)
  deriving DecidableEq, Repr

/-- The empty-default slot of a field (the schema slot before a merge). -/
def fieldSlot0 : FieldVal → Slot
  | .fBool _ => .prim .tbool (.vbool false)
  | .fInt _ => .prim .tint (.vint 0)
  | .fFloat _ _ => .prim .tfloat (.vfloat 0 0)
  | .fStr _ => .prim .tstr (.vstr "")
  | .fEnum tbl _ _ => .enum tbl 0

/-- The populated slot of a field after its document leaf is merged
(strings in their write-normalized `str(fromStr s)` form). -/
def fieldSlot1 : FieldVal → Slot
  | .fBool b => .prim .tbool (.vbool b)
  | .fInt n => .prim .tint (.vint n)
  | .fFloat m k => .prim .tfloat (.vfloat m k)
  | .fStr s => .prim .tstr (.vstr (wStore s))
  | .fEnum tbl _ c => .enum tbl c

/-- The document leaf carrying a field's value (enums by symbol name). -/
def fieldLeaf : FieldVal → PVal
  | .fBool b => .vbool b
  | .fInt n => .vint n
  | .fFloat m k => .vfloat m k
  | .fStr s => .vstr s
  | .fEnum _ nm _ => .vstr nm

/-- Write-normalization of a field: the form the exported document shows
(string leaves become their stored `wStore` form, all else unchanged). -/
def normF : FieldVal → FieldVal
  | .fStr s => .fStr (wStore s)
  | f => f

/-- One document/schema section: its name and its named fields. -/
abbrev Sec := String × List (String × FieldVal)

/-- The schema (empty-default) slots of a field list. -/
def fields0 (fs : List (String × FieldVal)) : Msg :=
  fs.map (fun f => (f.1, fieldSlot0 f.2))

/-- The populated slots of a field list. -/
def fields1 (fs : List (String × FieldVal)) : Msg :=
  fs.map (fun f => (f.1, fieldSlot1 f.2))

/-- The camel-keyed document entries of a field list. -/
def secEntriesD (fs : List (String × FieldVal)) : List (String × DocV) :=
  fs.map (fun f => (snake_to_camel f.1, DocV.leaf (fieldLeaf f.2)))

/-- The empty-default configuration tree of a section list. -/
def tree0 (secs : List Sec) : Msg :=
  secs.map (fun sc => (sc.1, Slot.sub (fields0 sc.2)))

/-- The fully populated configuration tree of a section list. -/
def tree1 (secs : List Sec) : Msg :=
  secs.map (fun sc => (sc.1, Slot.sub (fields1 sc.2)))

/-- The external document of a section list. -/
def docOf (secs : List Sec) : Doc :=
  secs.map (fun sc => (sc.1, DocV.sub (secEntriesD sc.2)))

/-- The attempted-leaf log of merging one section. -/
def secAtts (sc : Sec) : List Attempt :=
  sc.2.map (fun f => ⟨sc.1 ++ "." ++ snake_to_camel f.1, fieldLeaf f.2, true⟩)

/-- The attempted-leaf log of merging a whole document. -/
def attsOf (secs : List Sec) : List Attempt := (secs.map secAtts).flatten

/-- Write-normalization of a named field. -/
def normField (f : String × FieldVal) : String × FieldVal := (f.1, normF f.2)

/-- Write-normalization of a whole section list: the document of the
normalized sections is exactly what exporting the populated tree emits. -/
def normSecs (secs : List Sec) : List Sec :=
  secs.map (fun sc => (sc.1, sc.2.map normField))

/-- A field value that survives the merge/export cycle: non-default (so
the export does not omit it), with enum symbols present in their table
under a nonzero code and parsed back as themselves, and with string
values whose write-normalization is idempotent (this includes
parse-unstable strings such as `"true"`, which is stored as `"True"` by
both merges). -/
@[reducible] def fieldOK : FieldVal → Prop
  | .fBool b => b = true
  | .fInt n => ¬(n = 0)
  | .fFloat m k => ¬(m = 0 ∧ k = 0)
  | .fStr s => wStore (wStore s) = wStore s ∧ ¬(wStore s = "")
  | .fEnum tbl nm c =>
      tbl.find? (fun e => e.name == nm) = some ⟨nm, c⟩ ∧
      tbl.find? (fun e => e.number == c) = some ⟨nm, c⟩ ∧
      fromStr nm = .vstr nm ∧ ¬(c = 0)

/-- A field name that survives the casing cycle under its section: its
camel rendering canonicalizes back to it, it is not the specially
validated `wifi_psk`, and the compound path splits into exactly the two
expected segments (no `.` inside either name). -/
@[reducible] def fieldNameOK (sn fn : String) : Prop :=
  camel_to_snake (snake_to_camel fn) = fn ∧ fn ≠ "wifi_psk" ∧
  splitCompoundName (sn ++ "." ++ snake_to_camel fn) = [sn, snake_to_camel fn]

/-- A well-formed section: a name fixed by both casing conversions (the
first path segment is looked up verbatim), not the redacted `security`
section, non-empty, with pairwise-distinct well-formed fields. -/
@[reducible] def secOK (sc : Sec) : Prop :=
  camel_to_snake sc.1 = sc.1 ∧ snake_to_camel sc.1 = sc.1 ∧ sc.1 ≠ "security" ∧
  sc.2 ≠ [] ∧ (∀ f ∈ sc.2, fieldOK f.2 ∧ fieldNameOK sc.1 f.1) ∧
  List.Pairwise (fun a b => a.1 ≠ b.1) sc.2

/-- A well-formed document/schema shape: non-empty, with well-formed
pairwise-distinct sections. -/
@[reducible] def docWF (secs : List Sec) : Prop :=
  secs ≠ [] ∧ (∀ sc ∈ secs, secOK sc) ∧ List.Pairwise (fun a b => a.1 ≠ b.1) secs

/-- Lookup skips a prefix that does not contain the key. -/
theorem msgGetEntry_append (pre rest : Msg) (n : String)
    (h : ∀ e ∈ pre, e.1 ≠ n) :
    msgGetEntry (pre ++ rest) n = msgGetEntry rest n := by
  induction pre with
  | nil => rfl
  | cons e pre ih =>
    obtain ⟨k, s⟩ := e
    have hk : k ≠ n := h (k, s) (by simp)
    simp only [List.cons_append, msgGetEntry, if_neg hk]
    exact ih (fun e' he' => h e' (by simp [he']))

/-- Lookup at the head. -/
theorem msgGetEntry_head (m : Msg) (n : String) (s : Slot) :
    msgGetEntry ((n, s) :: m) n = some (n, s) := by
  simp [msgGetEntry]

/-- Update rewrites the first occurrence of the key when the prefix does
not contain it. -/
theorem msgSet_append_head (pre rest : Msg) (n : String) (s0 s : Slot)
    (h : ∀ e ∈ pre, e.1 ≠ n) :
    msgSet (pre ++ (n, s0) :: rest) n s = pre ++ (n, s) :: rest := by
  induction pre with
  | nil => simp [msgSet]
  | cons e pre ih =>
    obtain ⟨k, s'⟩ := e
    have hk : k ≠ n := h (k, s') (by simp)
    simp only [List.cons_append, msgSet, if_neg hk, List.cons.injEq, true_and]
    exact ih (fun e' he' => h e' (by simp [he']))

/-- After an update, lookup of the updated key finds the new slot
(provided the key was present). -/
theorem msgGetEntry_msgSet_self (m : Msg) (n : String) (s : Slot)
    (h : ∃ e, msgGetEntry m n = some e) :
    msgGetEntry (msgSet m n s) n = some (n, s) := by
  induction m with
  | nil => obtain ⟨e, he⟩ := h; exact Option.noConfusion he
  | cons e m ih =>
    obtain ⟨k, s'⟩ := e
    by_cases hk : k = n
    · subst hk
      simp [msgSet, msgGetEntry]
    · simp only [msgSet, if_neg hk, msgGetEntry]
      refine ih ?_
      obtain ⟨e', he'⟩ := h
      simp only [msgGetEntry, if_neg hk] at he'
      exact ⟨e', he'⟩

/-- An update leaves lookups of other keys unchanged. -/
theorem msgGetEntry_msgSet_other (m : Msg) (n n' : String) (s : Slot)
    (h : n' ≠ n) :
    msgGetEntry (msgSet m n s) n' = msgGetEntry m n' := by
  induction m with
  | nil => rfl
  | cons e m ih =>
    obtain ⟨k, s'⟩ := e
    by_cases hk : k = n
    · subst hk
      have hk' : k ≠ n' := fun hh => h (hh.symm)
      simp [msgSet, msgGetEntry, if_neg hk']
    · by_cases hk' : k = n'
      · subst hk'
        simp [msgSet, if_neg hk, msgGetEntry]
      · simp only [msgSet, if_neg hk, msgGetEntry, if_neg hk']
        exact ih

/-- Two updates of the same key collapse to the second. -/
theorem msgSet_msgSet (m : Msg) (n : String) (s1 s2 : Slot) :
    msgSet (msgSet m n s1) n s2 = msgSet m n s2 := by
  induction m with
  | nil => rfl
  | cons e m ih =>
    obtain ⟨k, s'⟩ := e
    by_cases hk : k = n
    · simp [msgSet, hk]
    · simp only [msgSet, if_neg hk, List.cons.injEq, true_and]
      exact ih

/-- Writing back the slot a key already holds is the identity. -/
theorem msgSet_self (m : Msg) (n : String) (s : Slot)
    (h : msgGetEntry m n = some (n, s)) : msgSet m n s = m := by
  induction m with
  | nil => exact Option.noConfusion h
  | cons e m ih =>
    obtain ⟨k, s'⟩ := e
    by_cases hk : k = n
    · subst hk
      simp only [msgGetEntry, if_true, eq_self_iff_true, Option.some.injEq,
        Prod.mk.injEq, true_and] at h
      simp [msgSet, h]
    · simp only [msgGetEntry, if_neg hk] at h
      simp only [msgSet, if_neg hk, List.cons.injEq, true_and]
      exact ih h

/-- The float-body parser only produces float values. -/
theorem parseFloatBody_vfloat : ∀ (cs : List Char) (v : PVal),
    parseFloatBody cs = some v → ∃ m k, v = .vfloat m k := by
  intro cs v h
  unfold parseFloatBody at h
  dsimp only at h
  repeat' split at h
  all_goals first
    | exact Option.noConfusion h
    | (injection h with h'; exact ⟨_, _, h'.symm⟩)

/-- The float parser only produces float values. -/
theorem parseFloatCL_vfloat : ∀ (cs : List Char) (v : PVal),
    parseFloatCL cs = some v → ∃ m k, v = .vfloat m k := by
  intro cs v h
  rw [parseFloatCL.eq_def] at h
  split at h
  · rename_i cs'
    cases hb : parseFloatBody cs' with
    | none => rw [hb] at h; exact Option.noConfusion h
    | some w =>
      rw [hb] at h
      obtain ⟨m, k, rfl⟩ := parseFloatBody_vfloat _ _ hb
      injection h with h'
      exact ⟨_, _, h'.symm⟩
  · exact parseFloatBody_vfloat _ _ h
  · exact parseFloatBody_vfloat _ _ h

/-- The shapes the primitive parser can produce: the input itself as a
string, or a boolean, integer or float. -/
theorem fromStr_shape (s : String) :
    fromStr s = .vstr s ∨ (∃ b, fromStr s = .vbool b) ∨ (∃ n, fromStr s = .vint n) ∨
      ∃ m k, fromStr s = .vfloat m k := by
  by_cases h1 : strLower s = "t" ∨ strLower s = "true" ∨ strLower s = "yes"
  · exact Or.inr (Or.inl ⟨true, by simp [fromStr, h1]⟩)
  by_cases h2 : strLower s = "f" ∨ strLower s = "false" ∨ strLower s = "no"
  · exact Or.inr (Or.inl ⟨false, by simp [fromStr, h1, h2]⟩)
  cases h3 : parseIntCL s.data with
  | some n =>
    exact Or.inr (Or.inr (Or.inl ⟨n, by simp [fromStr, h1, h2, h3]⟩))
  | none =>
    cases h4 : parseFloatCL s.data with
    | some v =>
      obtain ⟨m, k, rfl⟩ := parseFloatCL_vfloat _ _ h4
      exact Or.inr (Or.inr (Or.inr ⟨m, k, by simp [fromStr, h1, h2, h3, h4]⟩))
    | none => exact Or.inl (by simp [fromStr, h1, h2, h3, h4])

/-- The field loop of one section merge: for a section whose submessage
is a processed prefix `pre` followed by the still-default slots of the
remaining fields, traversing the camel-keyed leaves applies every field
in order, leaving the submessage with every remaining field populated. -/
theorem travFields : ∀ (fs : List (String × FieldVal)) (config : Msg) (sn : String)
    (pre : Msg),
    msgGetEntry config sn = some (sn, Slot.sub (pre ++ fields0 fs)) →
    (∀ f ∈ fs, fieldOK f.2 ∧ fieldNameOK sn f.1) →
    List.Pairwise (fun a b => a.1 ≠ b.1) fs →
    (∀ f ∈ fs, ∀ e ∈ pre, e.1 ≠ f.1) →
    traverseEntries false sn (secEntriesD fs) config =
      .ok (msgSet config sn (Slot.sub (pre ++ fields1 fs)),
        fs.map (fun f => ⟨sn ++ "." ++ snake_to_camel f.1, fieldLeaf f.2, true⟩))
  | [], config, sn, pre, hct, _, _, _ => by
    have h1 : msgSet config sn (Slot.sub (pre ++ fields1 [])) = config :=
      msgSet_self config sn _ hct
    simp [secEntriesD, traverseEntries, h1]
  | (fn, fv) :: rest, config, sn, pre, hct, hwf, hpair, hdisj => by
    obtain ⟨hok, hname⟩ := hwf (fn, fv) (by simp)
    obtain ⟨hfn, hwifi, hsplit⟩ := hname
    obtain ⟨hhead, htail⟩ := List.pairwise_cons.mp hpair
    have hdisj0 : ∀ e ∈ pre, e.1 ≠ fn := fun e he => hdisj (fn, fv) (by simp) e he
    have hsm : pre ++ fields0 ((fn, fv) :: rest) =
        pre ++ (fn, fieldSlot0 fv) :: fields0 rest := by simp [fields0]
    have hpf : msgGetEntry (pre ++ fields0 ((fn, fv) :: rest)) fn =
        some (fn, fieldSlot0 fv) := by
      rw [hsm, msgGetEntry_append _ _ _ hdisj0, msgGetEntry_head]
    have hmain : ∃ m, setPref false config (sn ++ "." ++ snake_to_camel fn)
        (fieldLeaf fv) =
        .ok ⟨true, msgSet config sn (.sub (msgSet (pre ++ fields0 ((fn, fv) :: rest)) fn
          (fieldSlot1 fv))), [m]⟩ := by
      cases fv with
      | fBool b =>
        exact setPref_prim_container false config _ sn (snake_to_camel fn) fn _
          .tbool (.vbool false) (.vbool b) (.vbool b) hsplit hfn hwifi hct hpf rfl
      | fInt n =>
        exact setPref_prim_container false config _ sn (snake_to_camel fn) fn _
          .tint (.vint 0) (.vint n) (.vint n) hsplit hfn hwifi hct hpf rfl
      | fFloat m k =>
        exact setPref_prim_container false config _ sn (snake_to_camel fn) fn _
          .tfloat (.vfloat 0 0) (.vfloat m k) (.vfloat m k) hsplit hfn hwifi hct hpf rfl
      | fStr s =>
        rcases fromStr_shape s with hsh | ⟨b', hsh⟩ | ⟨n', hsh⟩ | ⟨m', k', hsh⟩
        · exact setPref_prim_container false config _ sn (snake_to_camel fn) fn _
            .tstr (.vstr "") (.vstr s) (.vstr (wStore s)) hsplit hfn hwifi hct hpf
            (by simp only [coerceRaw, wStore, hsh, pstr, storePrim])
        · exact setPref_prim_container_retry false config _ sn (snake_to_camel fn) fn _
            .tstr (.vstr "") (.vstr s) (.vstr (wStore s)) hsplit hfn hwifi hct hpf
            (by simp only [coerceRaw]; rw [hsh]; rfl) rfl
        · exact setPref_prim_container_retry false config _ sn (snake_to_camel fn) fn _
            .tstr (.vstr "") (.vstr s) (.vstr (wStore s)) hsplit hfn hwifi hct hpf
            (by simp only [coerceRaw]; rw [hsh]; rfl) rfl
        · exact setPref_prim_container_retry false config _ sn (snake_to_camel fn) fn _
            .tstr (.vstr "") (.vstr s) (.vstr (wStore s)) hsplit hfn hwifi hct hpf
            (by simp only [coerceRaw]; rw [hsh]; rfl) rfl
      | fEnum tbl nm c =>
        obtain ⟨hfind, -, hstr, -⟩ := hok
        exact setPref_enum_container false config _ sn (snake_to_camel fn) fn _
          tbl 0 nm ⟨nm, c⟩ hsplit hfn hwifi hct hpf hstr hfind
    obtain ⟨m1, hsp⟩ := hmain
    have hset : msgSet (pre ++ fields0 ((fn, fv) :: rest)) fn (fieldSlot1 fv) =
        (pre ++ [(fn, fieldSlot1 fv)]) ++ fields0 rest := by
      rw [hsm, msgSet_append_head _ _ _ _ _ hdisj0]
      simp
    have hct' : msgGetEntry (msgSet config sn
        (.sub (msgSet (pre ++ fields0 ((fn, fv) :: rest)) fn (fieldSlot1 fv)))) sn =
        some (sn, .sub ((pre ++ [(fn, fieldSlot1 fv)]) ++ fields0 rest)) := by
      rw [hset]
      exact msgGetEntry_msgSet_self config sn _ ⟨_, hct⟩
    have hdisj' : ∀ f ∈ rest, ∀ e ∈ pre ++ [(fn, fieldSlot1 fv)], e.1 ≠ f.1 := by
      intro f hf e he
      rcases List.mem_append.mp he with hp | hs
      · exact hdisj f (by simp [hf]) e hp
      · have he2 : e = (fn, fieldSlot1 fv) := by simpa using hs
        rw [he2]
        exact hhead f hf
    have ih := travFields rest
      (msgSet config sn
        (.sub (msgSet (pre ++ fields0 ((fn, fv) :: rest)) fn (fieldSlot1 fv))))
      sn (pre ++ [(fn, fieldSlot1 fv)]) hct'
      (fun f hf => hwf f (by simp [hf])) htail hdisj'
    have hstep : secEntriesD ((fn, fv) :: rest) =
        (snake_to_camel fn, DocV.leaf (fieldLeaf fv)) :: secEntriesD rest := by
      simp [secEntriesD]
    rw [hstep]
    simp only [traverseEntries]
    rw [hsp]
    simp only [bind, Except.bind]
    rw [ih]
    have htree : msgSet (msgSet config sn
        (.sub (msgSet (pre ++ fields0 ((fn, fv) :: rest)) fn (fieldSlot1 fv)))) sn
        (Slot.sub ((pre ++ [(fn, fieldSlot1 fv)]) ++ fields1 rest)) =
        msgSet config sn (Slot.sub (pre ++ fields1 ((fn, fv) :: rest))) := by
      rw [msgSet_msgSet]
      have : (pre ++ [(fn, fieldSlot1 fv)]) ++ fields1 rest =
          pre ++ fields1 ((fn, fv) :: rest) := by simp [fields1]
      rw [this]
    rw [htree]
    simp

/-- One section merge: `traverseConfig` on the section's camel-keyed
document entries populates every field of the section. -/
theorem travSection (sc : Sec) (config : Msg) (hwf : secOK sc)
    (hct : msgGetEntry config sc.1 = some (sc.1, .sub (fields0 sc.2))) :
    traverseConfig false sc.1 (DocV.sub (secEntriesD sc.2)) config =
      .ok (true, msgSet config sc.1 (.sub (fields1 sc.2)), secAtts sc) := by
  obtain ⟨hsnake, -, -, -, hfs, hpair⟩ := hwf
  have h := travFields sc.2 config sc.1 [] (by simpa using hct) hfs hpair (by simp)
  simp only [List.nil_append] at h
  unfold traverseConfig
  rw [hsnake, h]
  simp [bind, Except.bind, secAtts]

/-- Sequential updates of the populated section slots. -/
def writeSecs : Msg → List Sec → Msg
  | config, [] => config
  | config, sc :: rest => writeSecs (msgSet config sc.1 (Slot.sub (fields1 sc.2))) rest

/-- The section loop of the merge driver: each section of the document is
applied in order against the evolving tree. -/
theorem mergeLoop : ∀ (secs : List Sec) (config : Msg),
    (∀ sc ∈ secs, secOK sc) →
    List.Pairwise (fun a b => a.1 ≠ b.1) secs →
    (∀ sc ∈ secs, msgGetEntry config sc.1 = some (sc.1, .sub (fields0 sc.2))) →
    mergeConfigDoc false (docOf secs) config = .ok (writeSecs config secs, attsOf secs)
  | [], config, _, _, _ => by
    simp [docOf, mergeConfigDoc, writeSecs, attsOf]
  | sc :: rest, config, hwf, hpair, hpres => by
    obtain ⟨hhead, htail⟩ := List.pairwise_cons.mp hpair
    have h1 := travSection sc config (hwf sc (by simp)) (hpres sc (by simp))
    have h2 := mergeLoop rest (msgSet config sc.1 (.sub (fields1 sc.2)))
      (fun sc' h' => hwf sc' (by simp [h']))
      htail
      (fun sc' h' => by
        rw [msgGetEntry_msgSet_other config sc.1 sc'.1 _ (fun hh => hhead sc' h' hh.symm)]
        exact hpres sc' (by simp [h']))
    have hdoc : docOf (sc :: rest) =
        (sc.1, DocV.sub (secEntriesD sc.2)) :: docOf rest := rfl
    have hatts : attsOf (sc :: rest) = secAtts sc ++ attsOf rest := rfl
    have hwrite : writeSecs config (sc :: rest) =
        writeSecs (msgSet config sc.1 (Slot.sub (fields1 sc.2))) rest := rfl
    rw [hdoc, hatts, hwrite]
    simp only [mergeConfigDoc]
    rw [h1]
    simp only [bind, Except.bind]
    rw [h2]

/-- In the default tree, every section's entry is found as its
default-slot submessage. -/
theorem tree0_present : ∀ (secs : List Sec) (sc : Sec),
    List.Pairwise (fun a b => a.1 ≠ b.1) secs → sc ∈ secs →
    msgGetEntry (tree0 secs) sc.1 = some (sc.1, .sub (fields0 sc.2))
  | [], sc, _, hmem => absurd hmem (by simp)
  | sc' :: rest, sc, hpair, hmem => by
    obtain ⟨hhead, htail⟩ := List.pairwise_cons.mp hpair
    rcases List.mem_cons.mp hmem with rfl | hmem'
    · simp [tree0, msgGetEntry]
    · have hne : sc'.1 ≠ sc.1 := hhead sc hmem'
      have ht : tree0 (sc' :: rest) =
          (sc'.1, Slot.sub (fields0 sc'.2)) :: tree0 rest := rfl
      rw [ht]
      simp only [msgGetEntry, if_neg hne]
      exact tree0_present rest sc htail hmem'

/-- Applying every section write to a prefixed default tree populates
exactly the written sections. -/
theorem writeSecs_pre : ∀ (secs : List Sec) (pre : Msg),
    (∀ sc ∈ secs, ∀ e ∈ pre, e.1 ≠ sc.1) →
    List.Pairwise (fun a b => a.1 ≠ b.1) secs →
    writeSecs (pre ++ tree0 secs) secs = pre ++ tree1 secs
  | [], pre, _, _ => by simp [writeSecs, tree0, tree1]
  | sc :: rest, pre, hd, hp => by
    obtain ⟨hhead, htail⟩ := List.pairwise_cons.mp hp
    have ht0 : tree0 (sc :: rest) = (sc.1, Slot.sub (fields0 sc.2)) :: tree0 rest := rfl
    have ht1 : tree1 (sc :: rest) = (sc.1, Slot.sub (fields1 sc.2)) :: tree1 rest := rfl
    have h1 : msgSet (pre ++ tree0 (sc :: rest)) sc.1 (Slot.sub (fields1 sc.2)) =
        (pre ++ [(sc.1, Slot.sub (fields1 sc.2))]) ++ tree0 rest := by
      rw [ht0, msgSet_append_head pre (tree0 rest) sc.1 _ _
        (fun e he => hd sc (by simp) e he)]
      simp
    have hd' : ∀ sc' ∈ rest, ∀ e ∈ pre ++ [(sc.1, Slot.sub (fields1 sc.2))], e.1 ≠ sc'.1 := by
      intro sc' h' e he
      rcases List.mem_append.mp he with hpm | hsm
      · exact hd sc' (by simp [h']) e hpm
      · have he2 : e = (sc.1, Slot.sub (fields1 sc.2)) := by simpa using hsm
        rw [he2]
        exact hhead sc' h'
    have hw : writeSecs (pre ++ tree0 (sc :: rest)) (sc :: rest) =
        writeSecs (msgSet (pre ++ tree0 (sc :: rest)) sc.1 (Slot.sub (fields1 sc.2))) rest :=
      rfl
    rw [hw, h1, writeSecs_pre rest (pre ++ [(sc.1, Slot.sub (fields1 sc.2))]) hd' htail,
      ht1]
    simp

/-- Merging the document of a well-formed section list into its
empty-default tree populates every field and logs every leaf. -/
theorem mergeTree (secs : List Sec) (hwf : ∀ sc ∈ secs, secOK sc)
    (hpair : List.Pairwise (fun a b => a.1 ≠ b.1) secs) :
    mergeConfigDoc false (docOf secs) (tree0 secs) = .ok (tree1 secs, attsOf secs) := by
  rw [mergeLoop secs (tree0 secs) hwf hpair
    (fun sc hm => tree0_present secs sc hpair hm)]
  have h2 := writeSecs_pre secs [] (by simp) hpair
  simp only [List.nil_append] at h2
  rw [h2]

/-- A populated qualifying slot exports as its (write-normalized)
document leaf, never omitted. -/
theorem slotExport (fv : FieldVal) (h : fieldOK fv) :
    slotToDocV (fieldSlot1 fv) = .ok (some (.leaf (fieldLeaf (normF fv)))) := by
  cases fv with
  | fBool b =>
    have hb : b = true := h
    subst hb
    rfl
  | fInt n =>
    have hn : ¬(n = 0) := h
    simp [fieldSlot1, slotToDocV, PTy.zeroVal, renderPrim, fieldLeaf, normF, hn]
  | fFloat m k =>
    have hmk : ¬(m = 0 ∧ k = 0) := h
    simp only [fieldSlot1, slotToDocV, PTy.zeroVal, renderPrim, fieldLeaf, normF]
    rw [if_neg (fun hh => hmk (by injection hh with h1 h2; exact ⟨h1, h2⟩))]
  | fStr s =>
    have hs : ¬(wStore s = "") := h.2
    simp [fieldSlot1, slotToDocV, PTy.zeroVal, renderPrim, fieldLeaf, normF, hs]
  | fEnum tbl nm c =>
    obtain ⟨-, hnum, -, hc⟩ := h
    simp [fieldSlot1, slotToDocV, enumName, hnum, hc, fieldLeaf, normF,
      bind, Except.bind]

/-- The export of a populated field list is its normalized camel-keyed
document entry list. -/
theorem subExport : ∀ (fs : List (String × FieldVal)), (∀ f ∈ fs, fieldOK f.2) →
    msgToDictSub (fields1 fs) = .ok (secEntriesD (fs.map normField))
  | [], _ => rfl
  | (fn, fv) :: rest, h => by
    have ih := subExport rest (fun f' h' => h f' (by simp [h']))
    have hs := slotExport fv (h (fn, fv) (by simp))
    have e1 : fields1 ((fn, fv) :: rest) = (fn, fieldSlot1 fv) :: fields1 rest := rfl
    have e2 : secEntriesD (((fn, fv) :: rest).map normField) =
        (snake_to_camel fn, DocV.leaf (fieldLeaf (normF fv))) ::
          secEntriesD (rest.map normField) := rfl
    rw [e1, e2]
    simp only [msgToDictSub, ih, hs, bind, Except.bind]

/-- The export of the fully populated tree is the normalized document. -/
theorem treeExport : ∀ (secs : List Sec), (∀ sc ∈ secs, secOK sc) →
    msgToDictSub (tree1 secs) = .ok (docOf (normSecs secs))
  | [], _ => rfl
  | sc :: rest, h => by
    have ih := treeExport rest (fun sc' h' => h sc' (by simp [h']))
    obtain ⟨-, hcamel, -, hne, hfs, -⟩ := h sc (by simp)
    have hsub := subExport sc.2 (fun f hf => (hfs f hf).1)
    have e1 : tree1 (sc :: rest) = (sc.1, Slot.sub (fields1 sc.2)) :: tree1 rest := rfl
    have e2 : docOf (normSecs (sc :: rest)) =
        (sc.1, DocV.sub (secEntriesD (sc.2.map normField))) ::
          docOf (normSecs rest) := rfl
    have hnenil : secEntriesD (sc.2.map normField) ≠ [] := by
      cases hval : sc.2 with
      | nil => exact absurd hval hne
      | cons f fs' => simp [secEntriesD]
    rw [e1, e2]
    simp only [msgToDictSub, slotToDocV, ih, hsub, bind, Except.bind,
      if_neg hnenil, hcamel]

/-- `redactSecurity` passes a document with no `security` key through. -/
theorem redactSecurity_skip : ∀ (cfg : Doc), (∀ e ∈ cfg, e.1 ≠ "security") →
    redactSecurity cfg = .ok cfg
  | [], _ => rfl
  | (k, v) :: rest, h => by
    have ih := redactSecurity_skip rest (fun e' h' => h e' (by simp [h']))
    have hk : k ≠ "security" := h (k, v) (by simp)
    simp only [redactSecurity] at ih ⊢
    rw [List.mapM_cons]
    simp only [List.mapM, bind, Except.bind, pure, Except.pure] at ih
    simp [hk, bind, Except.bind, pure, Except.pure]
    rw [ih]

/-- Exporting the populated tree of a well-formed section list yields
exactly the normalized document under the `config` key. -/
theorem exportTree (secs : List Sec) (hne : secs ≠ [])
    (hwf : ∀ sc ∈ secs, secOK sc) :
    exConfigObj false (cexIface (tree1 secs)) =
      .ok [("config", DocV.sub (docOf (normSecs secs)))] := by
  have hd : msgToDict (tree1 secs) = .ok (docOf (normSecs secs)) := treeExport secs hwf
  have hskip : redactSecurity (docOf (normSecs secs)) = .ok (docOf (normSecs secs)) := by
    apply redactSecurity_skip
    intro e he
    simp only [docOf, normSecs, List.map_map, List.mem_map] at he
    obtain ⟨sc0, hm, rfl⟩ := he
    exact (hwf sc0 hm).2.2.1
  have hdoc_ne : ¬(docOf (normSecs secs) = []) := by
    cases hval : secs with
    | nil => exact absurd hval hne
    | cons sc rest => simp [docOf, normSecs]
  unfold exConfigObj
  simp only [hd, bind, Except.bind, optTruthyV]
  rw [if_neg hdoc_ne]
  simp [hskip, msgToDict, msgToDictSub, bind, Except.bind, pure, Except.pure]

/-- Normalization does not change a field's default slot. -/
theorem fieldSlot0_norm (fv : FieldVal) : fieldSlot0 (normF fv) = fieldSlot0 fv := by
  cases fv <;> rfl

/-- For a qualifying field, normalization does not change the stored
slot either (write-normalization is idempotent on it). -/
theorem fieldSlot1_norm (fv : FieldVal) (h : fieldOK fv) :
    fieldSlot1 (normF fv) = fieldSlot1 fv := by
  cases fv with
  | fStr s =>
    simp only [normF, fieldSlot1]
    rw [h.1]
  | fBool b => rfl
  | fInt n => rfl
  | fFloat m k => rfl
  | fEnum tbl nm c => rfl

/-- A qualifying field stays qualifying after normalization. -/
theorem fieldOK_norm (fv : FieldVal) (h : fieldOK fv) : fieldOK (normF fv) := by
  cases fv with
  | fStr s =>
    refine ⟨?_, ?_⟩
    · show wStore (wStore (wStore s)) = wStore (wStore s)
      rw [h.1]
      exact h.1
    · show ¬(wStore (wStore s) = "")
      rw [h.1]
      exact h.2
  | fBool b => exact h
  | fInt n => exact h
  | fFloat m k => exact h
  | fEnum tbl nm c => exact h

/-- The default slots of a normalized field list are unchanged. -/
theorem fields0_norm (fs : List (String × FieldVal)) :
    fields0 (fs.map normField) = fields0 fs := by
  simp [fields0, normField, List.map_map, Function.comp, fieldSlot0_norm]

/-- The stored slots of a qualifying normalized field list are
unchanged. -/
theorem fields1_norm : ∀ (fs : List (String × FieldVal)),
    (∀ f ∈ fs, fieldOK f.2) → fields1 (fs.map normField) = fields1 fs
  | [], _ => rfl
  | (fn, fv) :: rest, h => by
    have ih := fields1_norm rest (fun f' h' => h f' (by simp [h']))
    have hh := fieldSlot1_norm fv (h (fn, fv) (by simp))
    simp [fields1, normField, hh] at ih ⊢
    exact ih

/-- The default tree of the normalized sections is the original default
tree. -/
theorem tree0_norm (secs : List Sec) : tree0 (normSecs secs) = tree0 secs := by
  simp [tree0, normSecs, List.map_map, Function.comp, fields0_norm]

/-- The populated tree of the normalized sections is the original
populated tree. -/
theorem tree1_norm : ∀ (secs : List Sec), (∀ sc ∈ secs, secOK sc) →
    tree1 (normSecs secs) = tree1 secs
  | [], _ => rfl
  | sc :: rest, h => by
    have ih := tree1_norm rest (fun sc' h' => h sc' (by simp [h']))
    have hf := fields1_norm sc.2 (fun f hf => ((h sc (by simp)).2.2.2.2.1 f hf).1)
    simp only [normSecs, List.map_cons, tree1] at ih ⊢
    simp [hf, ih]

/-- A well-formed section stays well-formed after normalization. -/
theorem secOK_norm (sc : Sec) (h : secOK sc) : secOK (sc.1, sc.2.map normField) := by
  obtain ⟨h1, h2, h3, h4, h5, h6⟩ := h
  refine ⟨h1, h2, h3, by simpa using h4, ?_, ?_⟩
  · intro f hf
    simp only [List.mem_map] at hf
    obtain ⟨f0, hm, rfl⟩ := hf
    exact ⟨fieldOK_norm f0.2 (h5 f0 hm).1, (h5 f0 hm).2⟩
  · rw [List.pairwise_map]
    exact h6

/-- A well-formed section list stays well-formed after normalization. -/
theorem docWF_norm (secs : List Sec) (h : docWF secs) : docWF (normSecs secs) := by
  obtain ⟨h1, h2, h3⟩ := h
  refine ⟨by simpa [normSecs] using h1, ?_, ?_⟩
  · intro sc hm
    simp only [normSecs, List.mem_map] at hm
    obtain ⟨sc0, hm0, rfl⟩ := hm
    exact secOK_norm sc0 (h2 sc0 hm0)
  · simp only [normSecs]
    rw [List.pairwise_map]
    exact h3

/-- C1 (corrected): round-trip idempotence of merge and export holds for
every document over a well-formed section/field shape whose leaves are
representable without redaction and survive the write cycle: arbitrary
sections of scalar fields with casing-stable, dot-free, pairwise-distinct
names (no `security` section, no `wifi_psk` field), each leaf non-default
— enum symbols listed in their table under a nonzero code, `true`
booleans, nonzero integers and floats, and strings with idempotent
write-normalization `str(fromStr s)` (including parse-unstable strings
such as `"true"`, stored as `"True"` by both merges).  Merging such a
document into the empty-default tree populates every field; exporting
the populated tree yields exactly the write-normalized document under
the `config` key; and re-merging that export into a fresh empty-default
tree reproduces the same populated tree.  (The unrestricted claim is
false: see the repeated-field counterexample.) -/
theorem C1_amended_roundtrip (secs : List Sec) (h : docWF secs) :
    mergeConfigDoc false (docOf secs) (tree0 secs) = .ok (tree1 secs, attsOf secs) ∧
    exConfigObj false (cexIface (tree1 secs)) =
      .ok [("config", DocV.sub (docOf (normSecs secs)))] ∧
    mergeConfigDoc false (configSection [("config", DocV.sub (docOf (normSecs secs)))])
        (tree0 secs) =
      .ok (tree1 secs, attsOf (normSecs secs)) := by
  obtain ⟨hne, hwf, hpair⟩ := h
  refine ⟨mergeTree secs hwf hpair, exportTree secs hne hwf, ?_⟩
  obtain ⟨hne', hwf', hpair'⟩ := docWF_norm secs ⟨hne, hwf, hpair⟩
  have h3 := mergeTree (normSecs secs) hwf' hpair'
  rw [tree0_norm secs, tree1_norm secs hwf] at h3
  exact h3

instance : DecidablePred fieldOK := fun fv =>
  match fv with
  | .fBool b => inferInstanceAs (Decidable (b = true))
  | .fInt n => inferInstanceAs (Decidable ¬(n = 0))
  | .fFloat m k => inferInstanceAs (Decidable ¬(m = 0 ∧ k = 0))
  | .fStr s =>
    inferInstanceAs (Decidable (wStore (wStore s) = wStore s ∧ ¬(wStore s = "")))
  | .fEnum tbl nm c =>
    inferInstanceAs (Decidable (tbl.find? (fun e => e.name == nm) = some ⟨nm, c⟩ ∧
      tbl.find? (fun e => e.number == c) = some ⟨nm, c⟩ ∧
      fromStr nm = .vstr nm ∧ ¬(c = 0)))

/-- The concrete witness document: two sections covering all five field
kinds, with the parse-unstable string `"true"` as the timezone value. -/
def c1secs : List Sec :=
  [("device", [("role", .fEnum lmhTbl "MEDIUM" 1), ("serial_enabled", .fBool true),
     ("tzdef", .fStr "true")]),
   ("position", [("gps_mode", .fEnum lmhTbl "HIGH" 2), ("broadcast_secs", .fInt 300),
     ("gain", .fFloat 25 1)])]

/-- Witness for the corrected C1 at the concrete document: the merge
populates both sections (storing `"True"` for the parse-unstable leaf
`"true"`), the export reproduces the normalized document, and the
re-merge reproduces the same tree. -/
theorem C1_amended_witness :
    docWF c1secs ∧
    tree1 c1secs =
      [("device", .sub [("role", .enum lmhTbl 1),
         ("serial_enabled", .prim .tbool (.vbool true)),
         ("tzdef", .prim .tstr (.vstr "True"))]),
       ("position", .sub [("gps_mode", .enum lmhTbl 2),
         ("broadcast_secs", .prim .tint (.vint 300)),
         ("gain", .prim .tfloat (.vfloat 25 1))])] ∧
    (mergeConfigDoc false (docOf c1secs) (tree0 c1secs) =
        .ok (tree1 c1secs, attsOf c1secs) ∧
      exConfigObj false (cexIface (tree1 c1secs)) =
        .ok [("config", DocV.sub (docOf (normSecs c1secs)))] ∧
      mergeConfigDoc false
          (configSection [("config", DocV.sub (docOf (normSecs c1secs)))])
          (tree0 c1secs) =
        .ok (tree1 c1secs, attsOf (normSecs c1secs))) :=
  ⟨by decide, by decide, C1_amended_roundtrip c1secs (by decide)⟩
